import Mathlib

/-!  Verification of the MutatorMath interpolation engine against its source,
     `src/Lib/mutatorMath/objects/mutator.py`.

     The engine is embedded shallowly over exact rationals: coordinates and the
     interpolated "math objects" are `ℚ` (the Python code works on floats and
     treats objects as an opaque algebra with `+`, `-` and scalar `*`; all the
     claims under study use numeric objects).  Machine epsilon
     (`sys.float_info.epsilon`, i.e. 2⁻⁵²) becomes the exact rational
     `EPSILON`.  Python's in-place mutation is embedded by explicit state
     passing: every operation that mutates the mutator or its location
     argument returns the new value of what it mutated.

     `mutator.py` imports `Location`, `sortLocations` and `biasFromLocations`
     from `mutatorMath/objects/location.py`, which is not part of the supplied
     source; those are modelled from the specification (their definitions say
     so in their doc comments).  -/

set_option allowUnsafeReducibility true in
attribute [semireducible] Rat.add Rat.mul Rat.sub Rat.div Rat.inv Rat.blt

namespace MutatorMath

/-- Machine epsilon for IEEE-754 doubles, the value of
    `_EPSILON = sys.float_info.epsilon` in `mutator.py`. -/
def EPSILON : ℚ := 1 / 2 ^ 52

/-!  ### String order

     Python 2 compares strings lexicographically by code point.  `String.lt`
     is that order, but its implementation does not reduce inside the kernel,
     so the development uses an explicit code-point comparison. -/

/-- Lexicographic strict order on code-point lists. -/
def codeLt : List ℕ → List ℕ → Bool
  | [], [] => false
  | [], _ :: _ => true
  | _ :: _, [] => false
  | x :: xs, y :: ys => if x < y then true else if y < x then false else codeLt xs ys

/-- The code points of a string. -/
def codes (s : String) : List ℕ := s.data.map (fun c => c.toNat)

/-- Code-point comparison of strings (the order Python 2 uses on axis
    names). -/
def strLtB (a b : String) : Bool := codeLt (codes a) (codes b)

theorem codeLt_irrefl (a : List ℕ) : codeLt a a = false := by
  induction a with
  | nil => rfl
  | cons x xs ih => simp [codeLt, lt_irrefl, ih]

theorem codeLt_asymm {a b : List ℕ} (h : codeLt a b = true) : codeLt b a = false := by
  induction a generalizing b with
  | nil =>
      cases b with
      | nil => rfl
      | cons y ys => rfl
  | cons x xs ih =>
      cases b with
      | nil => simp [codeLt] at h
      | cons y ys =>
          simp only [codeLt] at h ⊢
          rcases lt_trichotomy x y with hxy | hxy | hxy
          · simp [hxy, lt_asymm hxy]
          · simp only [hxy, lt_irrefl, if_neg (lt_irrefl _)] at h ⊢
            exact ih h
          · simp [hxy, lt_asymm hxy] at h

theorem codeLt_trans {a b c : List ℕ} (h1 : codeLt a b = true) (h2 : codeLt b c = true) :
    codeLt a c = true := by
  induction a generalizing b c with
  | nil =>
      cases c with
      | nil =>
          cases b with
          | nil => exact h1
          | cons y ys => simp [codeLt] at h2
      | cons z zs => rfl
  | cons x xs ih =>
      cases b with
      | nil => simp [codeLt] at h1
      | cons y ys =>
          cases c with
          | nil => simp [codeLt] at h2
          | cons z zs =>
              simp only [codeLt] at h1 h2 ⊢
              rcases lt_trichotomy x y with hxy | hxy | hxy
              · rcases lt_trichotomy y z with hyz | hyz | hyz
                · simp [lt_trans hxy hyz]
                · simp [hyz ▸ hxy]
                · simp [hyz, lt_asymm hyz, lt_irrefl] at h2
              · rcases lt_trichotomy y z with hyz | hyz | hyz
                · simp [hxy ▸ hyz]
                · subst hxy; subst hyz
                  simp only [lt_irrefl, if_neg (lt_irrefl _)] at h1 h2 ⊢
                  exact ih h1 h2
                · simp [hyz, lt_asymm hyz, lt_irrefl] at h2
              · simp [hxy, lt_asymm hxy, lt_irrefl] at h1

theorem codeLt_conn {a b : List ℕ} (h1 : codeLt a b = false) (h2 : codeLt b a = false) :
    a = b := by
  induction a generalizing b with
  | nil =>
      cases b with
      | nil => rfl
      | cons y ys => simp [codeLt] at h1
  | cons x xs ih =>
      cases b with
      | nil => simp [codeLt] at h2
      | cons y ys =>
          simp only [codeLt] at h1 h2
          rcases lt_trichotomy x y with hxy | hxy | hxy
          · simp [hxy] at h1
          · subst hxy
            simp only [lt_irrefl, if_neg (lt_irrefl _)] at h1 h2
            rw [ih h1 h2]
          · simp [hxy, lt_asymm hxy, lt_irrefl] at h2

theorem codes_inj {a b : String} (h : codes a = codes b) : a = b := by
  unfold codes at h
  have hd : a.data = b.data := by
    refine List.map_injective_iff.mpr ?_ h
    intro c d hcd
    exact Char.ext (UInt32.ext hcd)
  cases a
  cases b
  exact congrArg String.mk hd

theorem strLtB_asymm {a b : String} (h : strLtB a b = true) : strLtB b a = false :=
  codeLt_asymm h

theorem strLtB_trans {a b c : String} (h1 : strLtB a b = true) (h2 : strLtB b c = true) :
    strLtB a c = true :=
  codeLt_trans h1 h2

theorem strLtB_conn {a b : String} (h1 : strLtB a b = false) (h2 : strLtB b a = false) :
    a = b :=
  codes_inj (codeLt_conn h1 h2)

theorem strLtB_irrefl (a : String) : strLtB a a = false := codeLt_irrefl _

/-- Modelled from the spec: a `Location` (location.py, spec section 3) is a
    finite mapping from axis name to rational coordinate.  It is embedded as
    its `asTuple()` form: an association list sorted by axis name.  Absent
    axes read as coordinate 0. -/
abbrev Loc := List (String × ℚ)

/-- Modelled from the spec: coordinate lookup; absent axes are semantically
    equivalent to coordinate 0 (spec section 3). -/
def Loc.find : Loc → String → ℚ
  | [], _ => 0
  | p :: t, k => if p.1 = k then p.2 else Loc.find t k

/-- The axis names mentioned by a location. -/
def Loc.dims (l : Loc) : List String := l.map (·.1)

/-- Trichotomy of the code-point order. -/
theorem strLtB_trichotomy (a b : String) :
    strLtB a b = true ∨ a = b ∨ strLtB b a = true := by
  cases h1 : strLtB a b
  · cases h2 : strLtB b a
    · exact Or.inr (Or.inl (strLtB_conn h1 h2))
    · exact Or.inr (Or.inr rfl)
  · exact Or.inl rfl

/-- Name order on coordinate pairs, used to keep locations in `asTuple`
    (name-sorted) form. -/
def nameLe (p q : String × ℚ) : Prop := strLtB q.1 p.1 = false

instance : DecidableRel nameLe := fun p q =>
  inferInstanceAs (Decidable (strLtB q.1 p.1 = false))

/-- Sort an association list into name order (the canonical `asTuple` form). -/
def Loc.norm (l : Loc) : Loc := List.insertionSort nameLe l

/-- Modelled from the spec: `a - b` yields the per-axis difference over the
    union of axes, retaining dimensions present in either input, including
    zero results (spec section 4.1). -/
def Loc.sub (a b : Loc) : Loc :=
  Loc.norm (((Loc.dims a ++ Loc.dims b).dedup).map
    (fun k => (k, Loc.find a k - Loc.find b k)))

/-- Modelled from the spec: `isOrigin()` checks that every coordinate is zero
    (spec section 4.1). -/
def Loc.isOrigin (l : Loc) : Bool := l.all (fun p => decide (p.2 = 0))

/-- The three possible answers of `Location.isOnAxis()`: the Python function
    returns `None` (origin), an axis name, or `False` (two or more non-zero
    coordinates). -/
inductive OnAxis where
  | origin : OnAxis
  | axis : String → OnAxis
  | off : OnAxis
deriving DecidableEq

/-- Modelled from the spec: `isOnAxis()` scans the non-zero coordinates and
    returns the name if there is exactly one, `None` (here `.origin`) if there
    are none, and `False` (here `.off`) otherwise (spec section 4.1). -/
def Loc.isOnAxis (l : Loc) : OnAxis :=
  match (l.filter (fun p => decide (p.2 ≠ 0))).map (·.1) with
  | [] => .origin
  | [k] => .axis k
  | _ => .off

/-- Modelled from the spec: `expand(names)` ensures all the given axis names
    appear in the location, inserting coordinate 0 where missing (spec
    section 3).  In Python this mutates the location in place; here the
    expanded location is returned. -/
def Loc.expand (l : Loc) (names : List String) : Loc :=
  Loc.norm (l ++ (names.filter (fun k => decide (k ∉ Loc.dims l))).map (fun k => (k, 0)))

/-- Modelled from the spec: `a.common(b)` projects both locations onto their
    shared dimensions and returns `None` when there are none (spec sections
    4.1 and 4.5).  An axis on which both coordinates are non-zero with
    opposite signs is not shared (the masters "do not constrain the query"
    there); an axis merely present in both operands is shared even when one
    coordinate is zero — the doctests of `mutator.py` (`test_getLimits` with
    query `pop=0` giving `(None, 0, None)`, and `test_twoAxesOffAxis(0, 0)`
    giving `0`) pin this reading down, where the spec's stricter wording
    ("both non-zero") would contradict them. -/
def Loc.common (a b : Loc) : Option (Loc × Loc) :=
  let shared := (Loc.dims a).filter (fun k =>
    decide (k ∈ Loc.dims b) &&
      !(decide (Loc.find a k ≠ 0) && decide (Loc.find b k ≠ 0) &&
        ((decide (Loc.find a k < 0) && decide (0 < Loc.find b k)) ||
         (decide (Loc.find b k < 0) && decide (0 < Loc.find a k)))))
  if shared = [] then none
  else some (shared.map (fun k => (k, Loc.find a k)), shared.map (fun k => (k, Loc.find b k)))

/-- Modelled from the spec: plain locations are non-ambivalent (spec section
    3); the paired, "ambivalent" form used for two-axis glyph interpolation is
    not representable in this embedding, so the predicate is constantly
    false.  Every claim under study uses plain locations only. -/
def Loc.isAmbivalent (_l : Loc) : Bool := false

/-!  ## The delta store

     `Mutator` in the source is a `dict` subclass mapping a location tuple to
     `(mathObject, deltaName)`, with the extra attributes `_axes` (the on-axis
     index cache), `_neutral` and `_bias` (`_tags` is never used).  The dict
     is embedded as an insertion-ordered association list with unique keys. -/

/-- A stored factor triple `(factor, mathItem, deltaName)` as produced by
    `getFactors`. -/
abbrev Fac := ℚ × ℚ × Option String

/-- The state of a `Mutator` object. -/
structure Mutator where
  deltas : List (Loc × ℚ × Option String)
  axes : List (String × List Loc)
  neutral : Option ℚ
  bias : Loc
deriving DecidableEq

/-- A fresh `Mutator()` (the `__init__` with the default `neutral=None`). -/
def Mutator.empty : Mutator := ⟨[], [], none, []⟩

/-- Assignment `self[key] = value` on the delta dict: replace the entry when
    the key is present, append it otherwise. -/
def dictSet (d : List (Loc × ℚ × Option String)) (k : Loc) (v : ℚ × Option String) :
    List (Loc × ℚ × Option String) :=
  if (d.map (·.1)).contains k then d.map (fun e => if e.1 = k then (k, v) else e)
  else d ++ [(k, v)]

/-- Lookup in the delta dict (first entry with the given key). -/
def dictGet (d : List (Loc × ℚ × Option String)) (k : Loc) : Option (ℚ × Option String) :=
  match d with
  | [] => none
  | e :: t => if e.1 = k then some e.2 else dictGet t k

/-- Lookup in the `_axes` cache, defaulting to the empty list.  (Python's
    `self._axes.get(name, None)` yields `None` for a missing axis and the
    subsequent `in` test would raise `TypeError`; that state is unreachable
    through `getInstance`, which always runs `_collectAxisPoints` first — see
    claim C10.) -/
def axesGet (a : List (String × List Loc)) (k : String) : List Loc :=
  match a with
  | [] => []
  | e :: t => if e.1 = k then e.2 else axesGet t k

/-- Assignment `self._axes[key] = value`. -/
def axesSet (a : List (String × List Loc)) (k : String) (v : List Loc) :
    List (String × List Loc) :=
  if (a.map (·.1)).contains k then a.map (fun e => if e.1 = k then (k, v) else e)
  else a ++ [(k, v)]

/-- `getAxisNames`: collect the axis names of all delta locations
    (`dict.fromkeys` gives set semantics; insertion order is kept here where
    Python's dict order is arbitrary — no consumer depends on the order). -/
def getAxisNames (m : Mutator) : List String :=
  (m.deltas.foldl (fun acc e => acc ++ Loc.dims e.1) []).dedup

/-- `_allLocations`: the locations of all stored deltas. -/
def allLocations (m : Mutator) : List Loc := m.deltas.map (·.1)

/-- One iteration of the `_collectAxisPoints` loop (lines 119-126): append an
    on-axis delta's raw stored location to its axis's list unless already
    present. -/
def collectStep (a : List (String × List Loc)) (e : Loc × ℚ × Option String) :
    List (String × List Loc) :=
  match Loc.isOnAxis e.1 with
  | .axis k =>
      let cur := axesGet a k
      if e.1 ∈ cur then a else axesSet a k (cur ++ [e.1])
  | _ => a

/-- `_collectAxisPoints`: walk the delta dict and append every on-axis delta
    location (raw stored key) to its axis's list, unless already present. -/
def collectAxisPoints (m : Mutator) : Mutator :=
  { m with axes := m.deltas.foldl collectStep m.axes }

/-!  ## Limits computation (`getLimits`)  -/

/-- A value bucket of `getLimits`: one of the inner dicts `limit[name]['<']`
    (etc.) mapping a coordinate to the master locations carrying it.  Embedded
    as an insertion-ordered association list (Python's small-number dict key
    order is implementation defined; the spec flags this, and no claim under
    study reaches a multi-key `'='` bucket). -/
abbrev VDict := List (ℚ × List Loc)

/-- Append a location under a coordinate key, creating the key when absent
    (the `if not ...has_key(value): ... append` pattern of `getLimits`). -/
def vput (d : VDict) (k : ℚ) (l : Loc) : VDict :=
  if (d.map (·.1)).contains k then d.map (fun e => if e.1 = k then (e.1, e.2 ++ [l]) else e)
  else d ++ [(k, [l])]

/-- The three buckets `limit[name]['<'] / ['='] / ['>']`. -/
structure Buckets where
  lt : VDict
  eq : VDict
  gt : VDict
deriving DecidableEq

/-- The middle component of a limits triple: `getLimits` puts either a plain
    coordinate or (in the "end of a limit" case of line 418) the whole `'='`
    dict there.  The dict form is never compared equal to a number and never
    reaches the arithmetic branches of `_calcOffAxisFactor`. -/
inductive MEntry where
  | num : ℚ → MEntry
  | dictM : VDict → MEntry
deriving DecidableEq

/-- A per-dimension limits triple `(below, at, above)`. -/
abbrev Triple := Option ℚ × Option MEntry × Option ℚ

/-- The synthetic bucket contents inserted when a dimension is first seen:
    `{0: [Location()]}` goes into `'>'`, `'<'` or `'='` according to the sign
    of the query's coordinate there. -/
def initBuckets (f : ℚ) : Buckets :=
  if 0 < f then ⟨[], [], [(0, [[]])]⟩
  else if f < 0 then ⟨[(0, [[]])], [], []⟩
  else ⟨[], [(0, [[]])], []⟩

/-- Bucket a master's coordinate `value` against the query's coordinate on
    the same axis, with the epsilon tolerance of `getLimits`. -/
def bucketPut (b : Buckets) (cur value : ℚ) (l : Loc) : Buckets :=
  if cur < value - EPSILON then { b with lt := vput b.lt value l }
  else if cur > value + EPSILON then { b with gt := vput b.gt value l }
  else { b with eq := vput b.eq value l }

/-- Update the bucket table at `name` (which is present). -/
def limitUpdate (t : List (String × Buckets)) (name : String) (cur value : ℚ) (l : Loc) :
    List (String × Buckets) :=
  t.map (fun e => if e.1 = name then (e.1, bucketPut e.2 cur value l) else e)

/-- The bucket-collection phase of `getLimits` (lines 357-386). -/
def collectLimits (locations : List Loc) (current : Loc) : List (String × Buckets) :=
  locations.foldl (fun t l =>
    match Loc.common current l with
    | none => t
    | some (a, b) => b.foldl (fun t p =>
        let f := Loc.find a p.1
        let t := if (t.map (·.1)).contains p.1 then t else t ++ [(p.1, initBuckets f)]
        limitUpdate t p.1 (Loc.find current p.1) p.2 l) t) []

/-- The aggregation phase of `getLimits` (lines 389-428): per axis, reduce the
    buckets to the relevant `(below, at, above)` triple, or to nothing when
    the extrapolation branches do not assign. -/
def aggregateLimits (lims : Buckets) : Option Triple :=
  let less := List.insertionSort (· ≤ ·) (lims.gt.map (·.1))
  let more := List.insertionSort (· ≤ ·) (lims.lt.map (·.1))
  let limMin := less.getLast?
  let limMax := more.head?
  match limMin, limMax with
  | none, some _ =>
      match lims.eq with
      | e :: _ => some (none, some (.num e.1), none)
      | [] =>
          match more with
          | m0 :: m1 :: _ => some (none, some (.num m0), some m1)
          | _ => none
  | some _, none =>
      match lims.eq with
      | _ :: _ => some (none, some (.dictM lims.eq), none)
      | [] =>
          match less.reverse with
          | last :: pen :: _ => some (some pen, some (.num last), none)
          | _ => none
  | _, _ =>
      match lims.eq with
      | e :: _ => some (none, some (.num e.1), none)
      | [] => some (limMin, none, limMax)

/-- `getLimits(locations, current)` with the default `sortResults=True`: find
    for each dimension relevant to `current` the bracketing master
    coordinates.  (The `sortResults=False` raw form and the `verbose` flag are
    not modelled; no caller in the source uses them.) -/
def getLimits (locations : List Loc) (current : Loc) : List (String × Triple) :=
  (collectLimits locations current).foldl (fun acc e =>
    match aggregateLimits e.2 with
    | some t => acc ++ [(e.1, t)]
    | none => acc) []

/-!  ## The factor engine  -/

/-- Equality test `v == M` of `_calcOffAxisFactor`: comparing a number with
    the dict form is `False` in Python 2. -/
def meq (v : ℚ) (M : MEntry) : Bool :=
  match M with
  | .num x => decide (v = x)
  | .dictM _ => false

/-- The numeric value of a limits middle entry, used only in branches that
    `getLimits` can only reach with the `num` form (the dict form appears
    solely in triples whose `below` and `above` are both `None`); Python
    would raise `TypeError` on the dict there. -/
def mnum (M : MEntry) : ℚ :=
  match M with
  | .num x => x
  | .dictM _ => 0

/-- `_calcOnAxisFactor` (lines 251-307): piecewise-linear weight of an
    on-axis delta along its axis, from the sorted distinct coordinates of all
    masters on that axis (including the synthetic origin sentinel). -/
def calcOnAxisFactor (aLocation : Loc) (deltaAxis : String) (deltasOnSameAxis : List Loc)
    (deltaLocation : Loc) : ℚ :=
  let f := if deltaAxis = "origin" then 0 else Loc.find aLocation deltaAxis
  let v := if deltaAxis = "origin" then 0 else Loc.find deltaLocation deltaAxis
  let i := List.insertionSort (· ≤ ·)
    ((deltasOnSameAxis.map (fun t => Loc.find t deltaAxis)).dedup)
  let B := List.insertionSort (· ≤ ·) (i.filter (fun x => decide (x < f)))
  let A := List.insertionSort (· ≤ ·) (i.filter (fun x => decide (x > f)))
  let M := List.insertionSort (· ≤ ·)
    (i.filter (fun x => decide (¬ x < f) && decide (¬ x > f)))
  match M.head?, B.getLast?, A.head? with
  | some _, _, _ =>
      if ((f - EPSILON < v) ∧ (f + EPSILON > v)) ∨ f = v then 1 else 0
  | none, some mB, some mA =>
      if v < mB ∨ v > mA then 0
      else if v = mA then (f - mB) / (mA - mB) else (f - mA) / (mB - mA)
  | none, none, some _ =>
      -- query below every master on the axis: extrapolate from the two
      -- smallest (`A[0]`, `A[1]`; Python would raise IndexError on a
      -- singleton `A`, which cannot occur with the sentinel present)
      match A with
      | a0 :: a1 :: _ =>
          if v = a1 then (f - a0) / (a1 - a0)
          else if v = a0 then (f - a1) / (a0 - a1) else 0
      | _ => 0
  | none, some _, none =>
      -- query above every master: extrapolate from the two largest
      match B.reverse with
      | bLast :: bPen :: _ =>
          if v = bPen then (f - bLast) / (bPen - bLast)
          else if v = bLast then (f - bPen) / (bLast - bPen) else 0
      | _ => 0
  | none, none, none => 0

/-- One dimension's sub-factor in `_calcOffAxisFactor` (lines 314-346). -/
def offAxisDim (f v : ℚ) (t : Triple) : ℚ :=
  let mB := t.1
  let M := t.2.1
  let mA := t.2.2
  match mA, decide (v > mA.getD v), mB, decide (v < mB.getD v) with
  | some _, true, _, _ => 0
  | _, _, some _, true => 0
  | _, _, _, _ =>
    if f < v - EPSILON then
      match mB with
      | none =>
          match M, mA with
          | some M', some a =>
              if meq v M' then (max f a - min f a) / (max (mnum M') a - min (mnum M') a)
              else -((max f a - min f a) / (max (mnum M') a - min (mnum M') a) - 1)
          | _, _ => 0
      | some b =>
          match mA with
          | none => 0
          | some a => (f - b) / (a - b)
    else if f > v + EPSILON then
      match mB with
      | none => 0
      | some b =>
          match mA with
          | none =>
              match M with
              | some M' =>
                  if meq v M' then (max f b - min f b) / (max b (mnum M') - min b (mnum M'))
                  else -((max f b - min f b) / (max b (mnum M') - min b (mnum M')) - 1)
              | none => 0
          | some a => (a - f) / (a - b)
    else 1

/-- `_calcOffAxisFactor` (lines 309-350): the product of the per-dimension
    sub-factors over the dimensions present in the limits table. -/
def calcOffAxisFactor (aLocation deltaLocation : Loc) (limits : List (String × Triple)) : ℚ :=
  (limits.map (fun e => offAxisDim (Loc.find aLocation e.1) (Loc.find deltaLocation e.1) e.2)).prod

/-- The list `self._axes[deltaAxis]` after the sentinel insertion of
    `_accumulateFactors` (lines 231-233): the synthetic `((axis, 0),)` origin
    representative is appended unless already present. -/
def ensureSentinel (dList : List Loc) (ax : String) : List Loc :=
  if [(ax, (0 : ℚ))] ∈ dList then dList else dList ++ [[(ax, (0 : ℚ))]]

/-- `_accumulateFactors` (lines 221-249): the scalar factor of one delta at
    the query location, together with the mutated `_axes` cache. -/
def accumulateFactors (axes : List (String × List Loc)) (aLocation deltaLocation : Loc)
    (limits : List (String × Triple)) (axisOnly : Bool) :
    ℚ × List (String × List Loc) :=
  match Loc.isOnAxis deltaLocation with
  | .origin => (1, axes)
  | .axis ax =>
      let dList := ensureSentinel (axesGet axes ax) ax
      let axes := axesSet axes ax dList
      if dList.length = 1 then (Loc.find aLocation ax * Loc.find deltaLocation ax, axes)
      else (calcOnAxisFactor aLocation ax dList deltaLocation, axes)
  | .off =>
      if axisOnly then (0, axes)  -- `relative` stays empty: `if not relative: return 0`
      else (calcOffAxisFactor aLocation deltaLocation limits, axes)

/-- Lexicographic comparison of location tuples, mirroring Python's ordering
    of `asTuple()` forms: compare names, then coordinates, position by
    position; a prefix sorts first. -/
def locLeB : Loc → Loc → Bool
  | [], _ => true
  | _ :: _, [] => false
  | a :: as, b :: bs =>
      if strLtB a.1 b.1 then true
      else if strLtB b.1 a.1 then false
      else if a.2 < b.2 then true
      else if b.2 < a.2 then false
      else locLeB as bs

theorem locLeB_total (a b : Loc) : locLeB a b = true ∨ locLeB b a = true := by
  induction a generalizing b with
  | nil => left; rfl
  | cons x xs ih =>
      cases b with
      | nil => right; rfl
      | cons y ys =>
          simp only [locLeB]
          rcases strLtB_trichotomy x.1 y.1 with h | h | h
          · left; simp [h]
          · rcases lt_trichotomy x.2 y.2 with h2 | h2 | h2
            · left; simp [h, strLtB_irrefl, h2]
            · rcases ih ys with ht | ht
              · left; simp [h, strLtB_irrefl, h2, lt_irrefl, ht]
              · right; simp [h, strLtB_irrefl, h2.symm, lt_irrefl, ht]
            · right; simp [h, strLtB_irrefl, h2, lt_asymm h2]
          · right; simp [h]

theorem locLeB_trans {a b c : Loc} (h1 : locLeB a b = true) (h2 : locLeB b c = true) :
    locLeB a c = true := by
  induction a generalizing b c with
  | nil => rfl
  | cons x xs ih =>
      cases b with
      | nil => simp [locLeB] at h1
      | cons y ys =>
          cases c with
          | nil => simp [locLeB] at h2
          | cons z zs =>
              simp only [locLeB] at h1 h2 ⊢
              rcases strLtB_trichotomy x.1 y.1 with hxy | hxy | hxy
              · rcases strLtB_trichotomy y.1 z.1 with hyz | hyz | hyz
                · simp [strLtB_trans hxy hyz]
                · rw [← hyz]; simp [hxy]
                · simp [hyz, strLtB_asymm hyz] at h2
              · rcases strLtB_trichotomy y.1 z.1 with hyz | hyz | hyz
                · rw [hxy]; simp [hyz]
                · -- names all equal; compare coordinates
                  rw [hxy] at h1 ⊢
                  rw [← hyz] at h2 ⊢
                  simp only [strLtB_irrefl, Bool.false_eq_true, if_false] at h1 h2 ⊢
                  rcases lt_trichotomy x.2 y.2 with h2xy | h2xy | h2xy
                  · rcases lt_trichotomy y.2 z.2 with h2yz | h2yz | h2yz
                    · simp [lt_trans h2xy h2yz]
                    · simp [h2yz ▸ h2xy]
                    · simp [h2yz, lt_asymm h2yz, lt_irrefl] at h2
                  · rcases lt_trichotomy y.2 z.2 with h2yz | h2yz | h2yz
                    · simp [h2xy ▸ h2yz]
                    · simp only [h2xy, h2yz, lt_irrefl, if_neg (lt_irrefl _)] at h1 h2 ⊢
                      exact ih h1 h2
                    · simp [h2yz, lt_asymm h2yz, lt_irrefl] at h2
                  · simp [h2xy, lt_asymm h2xy, lt_irrefl] at h1
                · simp [hyz, strLtB_asymm hyz] at h2
              · simp [hxy, strLtB_asymm hxy] at h1

theorem locLeB_antisymm {a b : Loc} (h1 : locLeB a b = true) (h2 : locLeB b a = true) :
    a = b := by
  induction a generalizing b with
  | nil =>
      cases b with
      | nil => rfl
      | cons y ys => simp [locLeB] at h2
  | cons x xs ih =>
      cases b with
      | nil => simp [locLeB] at h1
      | cons y ys =>
          simp only [locLeB] at h1 h2
          rcases strLtB_trichotomy x.1 y.1 with hxy | hxy | hxy
          · simp [hxy, strLtB_asymm hxy] at h2
          · rw [hxy] at h1 h2
            simp only [strLtB_irrefl, Bool.false_eq_true, if_false] at h1 h2
            rcases lt_trichotomy x.2 y.2 with h2xy | h2xy | h2xy
            · simp [h2xy, lt_asymm h2xy, lt_irrefl] at h2
            · simp only [h2xy, lt_irrefl, if_neg (lt_irrefl _)] at h1 h2
              have : x = y := Prod.ext hxy h2xy
              rw [this, ih h1 h2]
            · simp [h2xy, lt_asymm h2xy, lt_irrefl] at h1
          · simp [hxy, strLtB_asymm hxy] at h1

/-- Key order for `sorted(self.iteritems())` in `getFactors`: the delta dict
    is sorted by location tuple (keys are unique, so only the key part of
    Python's pair comparison can ever decide). -/
def keyLe (a b : Loc × ℚ × Option String) : Prop := locLeB a.1 b.1 = true

instance : DecidableRel keyLe := fun a b => inferInstanceAs (Decidable (locLeB a.1 b.1 = true))

instance : IsTotal (Loc × ℚ × Option String) keyLe := ⟨fun a b => locLeB_total a.1 b.1⟩

instance : IsTrans (Loc × ℚ × Option String) keyLe := ⟨fun _ _ _ h h' => locLeB_trans h h'⟩

/-- Factor order for the final `deltas.sort()` of `getFactors`: ascending by
    factor (Python breaks factor ties by comparing the math objects and the
    delta names; ties only reorder equal-factor entries and no consumer
    depends on their relative order). -/
def facLe (a b : Fac) : Prop := a.1 ≤ b.1

instance : DecidableRel facLe := fun a b => inferInstanceAs (Decidable (a.1 ≤ b.1))

instance : IsTotal Fac facLe := ⟨fun a b => le_total a.1 b.1⟩

instance : IsTrans Fac facLe := ⟨fun _ _ _ h h' => le_trans h h'⟩

/-- The per-delta step of `getFactors` (lines 206-212): expand the delta
    location by the axis names, compute the factor, keep the triple when the
    factor is not within epsilon of zero. -/
def factorsStep (names : List String) (q : Loc) (limits : List (String × Triple))
    (axisOnly : Bool) (acc : List Fac × List (String × List Loc))
    (e : Loc × ℚ × Option String) : List Fac × List (String × List Loc) :=
  let dl := Loc.expand e.1 names
  let r := accumulateFactors acc.2 q dl limits axisOnly
  (if ¬ (r.1 - EPSILON < 0 ∧ 0 < r.1 + EPSILON) then acc.1 ++ [(r.1, e.2.1, e.2.2)]
   else acc.1, r.2)

/-- `getFactors(aLocation, axisOnly)` (lines 198-215).  Returns the sorted
    surviving factor list together with the mutated mutator (`_axes` cache)
    and the mutated query location (`aLocation.expand(...)` works in place in
    Python). -/
def getFactorsSt (m : Mutator) (aLocation : Loc) (axisOnly : Bool) :
    List Fac × Mutator × Loc :=
  let names := getAxisNames m
  let q := Loc.expand aLocation names
  let limits := getLimits (allLocations m) q
  let r := (List.insertionSort keyLe m.deltas).foldl (factorsStep names q limits axisOnly)
    ([], m.axes)
  ((List.insertionSort facLe r.1).reverse, { m with axes := r.2 }, q)

/-- The value `0 * self._neutral` used for an empty blend (line 182).  With an
    unset neutral Python would raise `TypeError`; the claims under study all
    concern mutators whose neutral is set. -/
def zeroOf (m : Mutator) : ℚ :=
  match m.neutral with
  | some n => 0 * n
  | none => 0  -- Python: `0 * None` raises TypeError; unreachable with a set neutral

/-- The weighted sum of `getInstance` (lines 175-182): `Σ factor · item`, or
    `0 * neutral` when no factor survived. -/
def weightedSum (m : Mutator) (fs : List Fac) : ℚ :=
  match fs with
  | [] => zeroOf m
  | _ => (fs.map (fun e => e.1 * e.2.1)).sum

/-- `getInstance(aLocation, axisOnly)` (lines 164-185): collect the axis
    points, compute the factors, and blend.  Returns the value, the mutated
    mutator and the mutated location.  (The `getFactors=True` variant only
    additionally returns the factor list, available here as
    `getFactorsSt`.) -/
def getInstanceSt (m : Mutator) (aLocation : Loc) (axisOnly : Bool) :
    ℚ × Mutator × Loc :=
  let m1 := collectAxisPoints m
  let r := getFactorsSt m1 aLocation axisOnly
  (weightedSum r.2.1 r.1, r.2.1, r.2.2)

/-- `makeInstance(aLocation)` (lines 187-196): shift by the bias, evaluate,
    and add the neutral.  The subtraction builds a fresh location, so the
    caller's argument comes back unmutated.  The ambivalent branch is
    unreachable in this embedding (`isAmbivalent` is constantly false, see
    `Loc.isAmbivalent`). -/
def makeInstanceSt (m : Mutator) (aLocation : Loc) : ℚ × Mutator × Loc :=
  if aLocation.isAmbivalent then (0, m, aLocation)
  else
    let r := getInstanceSt m (Loc.sub aLocation m.bias) false
    (r.1 + (r.2.1.neutral.getD 0), r.2.1, aLocation)

/-- `addDelta(location, aMathObject, deltaName, punch, axisOnly)` (lines
    84-100).  With `punch=True` the current instance at `location` is
    subtracted first; note that `getInstance` expands `location` in place, so
    the punched delta is stored under the expanded key.  (`getInstance` always
    returns a value in this model, so the dead `r is None` error branch — which
    would also crash on the undefined name `mutator.error` — is not
    represented.) -/
def addDelta (m : Mutator) (location : Loc) (aMathObject : ℚ) (deltaName : Option String)
    (punch axisOnly : Bool) : Mutator :=
  if punch then
    let r := getInstanceSt m location axisOnly
    { r.2.1 with deltas := dictSet r.2.1.deltas r.2.2 (aMathObject - r.1, deltaName) }
  else { m with deltas := dictSet m.deltas location (aMathObject, deltaName) }

/-- `setNeutral(aMathObject, deltaName="origin")` (lines 75-78). -/
def setNeutral (m : Mutator) (aMathObject : ℚ) : Mutator :=
  addDelta { m with neutral := some aMathObject } [] (aMathObject - aMathObject)
    (some "origin") false true

/-!  ## The builder (`buildMutator`)  -/

/-- The two failures the builder can report (spec sections 6 and 7): in the
    source both surface as `MutatorError`; `EmptyInput` comes from
    `biasFromLocations` in the missing `location.py`, `NoNeutral` from
    `buildMutator` itself (line 30). -/
inductive MutatorError where
  | noNeutral : MutatorError
  | emptyInput : MutatorError
deriving DecidableEq

/-- Order for `items.sort()` in `buildMutator` (line 19): items are
    `(Location, object)` pairs, compared by location and then by object; the
    object tiebreak only matters for duplicate locations.  (CPython 2 orders
    dicts by size first; the difference only permutes distinct locations and
    every consumer is insensitive to which total order is used, as long as it
    is one.) -/
def itemLeB (a b : Loc × ℚ) : Bool :=
  if a.1 = b.1 then decide (a.2 ≤ b.2) else locLeB a.1 b.1

def itemLe (a b : Loc × ℚ) : Prop := itemLeB a b = true

instance : DecidableRel itemLe := fun a b => inferInstanceAs (Decidable (itemLeB a b = true))

instance : IsTotal (Loc × ℚ) itemLe := by
  refine ⟨fun a b => ?_⟩
  unfold itemLe itemLeB
  by_cases h : a.1 = b.1
  · rw [if_pos h, if_pos h.symm]
    rcases le_total a.2 b.2 with hle | hle
    · exact Or.inl (decide_eq_true hle)
    · exact Or.inr (decide_eq_true hle)
  · rw [if_neg h, if_neg (fun hba : b.1 = a.1 => h hba.symm)]
    exact locLeB_total a.1 b.1

instance : IsTrans (Loc × ℚ) itemLe := by
  refine ⟨fun a b c h1 h2 => ?_⟩
  unfold itemLe itemLeB at h1 h2 ⊢
  by_cases hab : a.1 = b.1 <;> by_cases hbc : b.1 = c.1
  · rw [if_pos hab, decide_eq_true_eq] at h1
    rw [if_pos hbc, decide_eq_true_eq] at h2
    rw [if_pos (hab.trans hbc), decide_eq_true_eq]
    exact le_trans h1 h2
  · rw [if_neg hbc] at h2
    rw [if_neg (fun hac : a.1 = c.1 => hbc (hab.symm.trans hac)), hab]
    exact h2
  · rw [if_neg hab] at h1
    rw [if_neg (fun hac : a.1 = c.1 => hab (hac.trans hbc.symm)), ← hbc]
    exact h1
  · rw [if_neg hab] at h1
    rw [if_neg hbc] at h2
    by_cases hac : a.1 = c.1
    · refine absurd (locLeB_antisymm h1 ?_) hab
      rw [hac]
      exact h2
    · rw [if_neg hac]
      exact locLeB_trans h1 h2

instance : IsAntisymm (Loc × ℚ) itemLe := by
  refine ⟨fun a b h1 h2 => ?_⟩
  unfold itemLe itemLeB at h1 h2
  by_cases h : a.1 = b.1
  · rw [if_pos h, decide_eq_true_eq] at h1
    rw [if_pos h.symm, decide_eq_true_eq] at h2
    exact Prod.ext h (le_antisymm h1 h2)
  · rw [if_neg h] at h1
    rw [if_neg (fun hba : b.1 = a.1 => h hba.symm)] at h2
    exact absurd (locLeB_antisymm h1 h2) h

/-- Squared distance of a location to the geometric origin, for the bias
    tiebreak. -/
def dist2 (l : Loc) : ℚ := (l.map (fun p => p.2 * p.2)).sum

/-- Count how many of the given locations have a "clean" residual (on-axis or
    origin) once the candidate is subtracted. -/
def cleanScore (locs : List Loc) (cand : Loc) : ℕ :=
  (locs.filter (fun l => match Loc.isOnAxis (Loc.sub l cand) with
    | .off => false
    | _ => true)).length

/-- Candidate `a` is strictly preferable to `b` as a bias. -/
def biasBetter (locs : List Loc) (a b : Loc) : Bool :=
  decide (cleanScore locs b < cleanScore locs a) ||
    (decide (cleanScore locs a = cleanScore locs b) &&
      (decide (dist2 a < dist2 b) ||
        (decide (dist2 a = dist2 b) && (locLeB a b && !(decide (a = b))))))

/-- Modelled from the spec: `biasFromLocations` (location.py, spec section
    4.2) picks among the given locations the one maximising the number of
    clean (on-axis or origin) residuals, preferring on ties the location
    closest to the geometric origin and then the lexicographically least, so
    the selection is deterministic; with no locations at all the builder's
    failure is `EmptyInput` (spec sections 6 and 7). -/
def biasFromLocations (locs : List Loc) : Except MutatorError Loc :=
  match locs with
  | [] => .error .emptyInput
  | l0 :: rest => .ok (rest.foldl (fun best c => if biasBetter locs c best then c else best) l0)

/-- `buildMutator(items)` (lines 12-42): sort the items, pick the bias, find
    the neutral, classify the remaining deltas into on-axis and off-axis
    groups, and insert them (on-axis plainly, off-axis punched). -/
def buildMutator (items : List (Loc × ℚ)) : Except MutatorError (Loc × Mutator) :=
  let sorted := List.insertionSort itemLe items
  match biasFromLocations (sorted.map (·.1)) with
  | .error e => .error e
  | .ok bias =>
      let m0 : Mutator := { Mutator.empty with bias := bias }
      match sorted.find? (fun it => Loc.isOrigin (Loc.sub it.1 bias)) with
      | none => .error .noNeutral
      | some it =>
          let neutral := it.2
          let m1 := setNeutral m0 neutral
          let onx := (sorted.filter (fun it =>
            !Loc.isOrigin (Loc.sub it.1 bias) &&
              (match Loc.isOnAxis (Loc.sub it.1 bias) with
               | .axis _ => true
               | _ => false))).map (fun it => (Loc.sub it.1 bias, it.2 - neutral))
          let ofx := (sorted.filter (fun it =>
            !Loc.isOrigin (Loc.sub it.1 bias) &&
              (match Loc.isOnAxis (Loc.sub it.1 bias) with
               | .axis _ => false
               | _ => true))).map (fun it => (Loc.sub it.1 bias, it.2 - neutral))
          let m2 := onx.foldl (fun m d => addDelta m d.1 d.2 none false true) m1
          let m3 := ofx.foldl (fun m d => addDelta m d.1 d.2 none true true) m2
          .ok (bias, m3)

/-!  ## Concrete systems from the doctests and the spec scenarios  -/

/-- The single-axis system of `test_singleAxis` generalised to neutral `N`
    and master value `V`: one on-axis master at `pop=1` whose stored delta is
    `V - N`. -/
def mC1 (N V : ℚ) : Mutator :=
  addDelta (setNeutral Mutator.empty N) [("pop", 1)] (V - N) (some "test") false true

/-- The concrete single-axis system of `test_singleAxis` (neutral 0,
    value 100). -/
def mSingle : Mutator := mC1 0 100

/-- The two-axis system of `test_twoAxes`: masters `pop=1 → 100` and
    `snap=1 → -100` over neutral 0. -/
def mTwoAxes : Mutator :=
  addDelta (addDelta (setNeutral Mutator.empty 0) [("pop", 1)] 100 (some "test1") false true)
    [("snap", 1)] (-100) (some "test2") false true

/-- The system of `test_twoAxesOffAxis`: `mTwoAxes` plus an off-axis punched
    master of value 50 at `(pop=1, snap=1)`. -/
def mOffAxis : Mutator :=
  addDelta mTwoAxes [("pop", 1), ("snap", 1)] 50 (some "test2") true true

/-!  ## Shared lemmas  -/

theorem dictGet_dictSet (d : List (Loc × ℚ × Option String)) (k : Loc) (v : ℚ × Option String) :
    dictGet (dictSet d k v) k = some v := by
  unfold dictSet
  split
  · next hc =>
      induction d with
      | nil => simp at hc
      | cons e t ih =>
          by_cases he : e.1 = k
          · simp [dictGet, he]
          · simp only [List.map_cons]
            rw [if_neg he]
            simp only [dictGet]
            rw [if_neg he]
            apply ih
            have hc' : k = e.1 ∨ (List.map (fun x => x.1) t).contains k = true := by
              simpa using hc
            rcases hc' with h | h
            · exact absurd h.symm he
            · exact h
  · next hc =>
      induction d with
      | nil => simp [dictGet]
      | cons e t ih =>
          have he : e.1 ≠ k := by
            intro h
            exact hc (by simp [List.contains_cons, h])
          simp only [List.cons_append, dictGet]
          rw [if_neg he]
          apply ih
          intro h
          exact hc (by simp only [List.map_cons, List.contains_cons, h, Bool.or_true])

/-- The "not within epsilon of zero" guard of `getFactors`, restated. -/
theorem keep_iff (a : ℚ) : (¬ (a - EPSILON < 0 ∧ 0 < a + EPSILON)) ↔ EPSILON ≤ |a| := by
  rw [le_abs]
  constructor
  · intro h
    rcases not_and_or.mp h with h | h
    · left; linarith [not_lt.mp h]
    · right; linarith [not_lt.mp h]
  · intro h
    rcases h with h | h
    · exact fun hc => absurd hc.1 (by push_neg; linarith)
    · exact fun hc => absurd hc.2 (by push_neg; linarith)

/-- Elements of the factor-fold accumulator are preserved by the rest of the
    fold (the accumulator only grows by appending). -/
theorem factors_fold_acc_mono (names : List String) (q : Loc) (limits : List (String × Triple))
    (ao : Bool) (l : List (Loc × ℚ × Option String)) (acc : List Fac × List (String × List Loc))
    (x : Fac) (hx : x ∈ acc.1) : x ∈ (l.foldl (factorsStep names q limits ao) acc).1 := by
  induction l generalizing acc with
  | nil => exact hx
  | cons e t ih =>
      refine ih _ ?_
      unfold factorsStep
      dsimp only
      split
      · exact List.mem_append_left _ hx
      · exact hx

/-- Everything the factor fold appends has passed the epsilon guard. -/
theorem factors_fold_all_kept (names : List String) (q : Loc) (limits : List (String × Triple))
    (ao : Bool) (l : List (Loc × ℚ × Option String)) (acc : List Fac × List (String × List Loc))
    (x : Fac) (hx : x ∈ (l.foldl (factorsStep names q limits ao) acc).1) :
    x ∈ acc.1 ∨ EPSILON ≤ |x.1| := by
  induction l generalizing acc with
  | nil => exact Or.inl hx
  | cons e t ih =>
      rcases ih _ hx with h | h
      · unfold factorsStep at h
        dsimp only at h
        revert h
        split
        · next hguard =>
            intro h
            rcases List.mem_append.mp h with h | h
            · exact Or.inl h
            · right
              rcases List.mem_singleton.mp h with rfl
              exact (keep_iff _).mp hguard
        · exact fun h => Or.inl h
      · exact Or.inr h

theorem EPSILON_pos : 0 < EPSILON := by norm_num [EPSILON]

theorem EPSILON_lt_one : EPSILON < 1 := by norm_num [EPSILON]

/-- The final sort of `getFactors` only permutes the surviving triples. -/
theorem facSorted_perm (l : List Fac) : ((List.insertionSort facLe l).reverse).Perm l :=
  (List.reverse_perm _).trans (List.perm_insertionSort facLe l)

theorem mem_facSorted {l : List Fac} {x : Fac} :
    x ∈ (List.insertionSort facLe l).reverse ↔ x ∈ l :=
  (facSorted_perm l).mem_iff

/-- A location whose coordinates are all zero classifies as the origin. -/
theorem isOnAxis_of_all_zero {l : Loc} (h : ∀ p ∈ l, p.2 = 0) :
    Loc.isOnAxis l = .origin := by
  unfold Loc.isOnAxis
  have hf : l.filter (fun p => decide (p.2 ≠ 0)) = [] := by
    rw [List.filter_eq_nil_iff]
    intro p hp
    simp [h p hp]
  rw [hf]
  rfl

/-- Expansion only adds zero coordinates, so an all-zero location stays
    all-zero. -/
theorem expand_all_zero {key : Loc} (names : List String) (h : Loc.isOrigin key = true) :
    ∀ p ∈ Loc.expand key names, p.2 = 0 := by
  intro p hp
  unfold Loc.expand Loc.norm at hp
  have hp' := (List.perm_insertionSort nameLe _).subset hp
  rcases List.mem_append.mp hp' with h1 | h1
  · exact of_decide_eq_true ((List.all_eq_true.mp h) p h1)
  · rcases List.mem_map.mp h1 with ⟨k, _, rfl⟩
    rfl

/-- The origin classification sends `_accumulateFactors` straight to
    factor 1, untouched axes cache, for every query, limits table and
    `axisOnly` mode. -/
theorem accumulateFactors_origin (A : List (String × List Loc)) (q dl : Loc)
    (limits : List (String × Triple)) (ao : Bool) (h : Loc.isOnAxis dl = .origin) :
    accumulateFactors A q dl limits ao = (1, A) := by
  unfold accumulateFactors
  rw [h]

/-- Processing a delta whose expanded location is the origin appends its
    triple with factor 1 to the accumulator. -/
theorem factors_fold_mem_origin (names : List String) (q : Loc)
    (limits : List (String × Triple)) (ao : Bool) (l : List (Loc × ℚ × Option String))
    (e : Loc × ℚ × Option String)
    (ho : Loc.isOnAxis (Loc.expand e.1 names) = .origin) :
    ∀ acc, e ∈ l → (1, e.2.1, e.2.2) ∈ (l.foldl (factorsStep names q limits ao) acc).1 := by
  induction l with
  | nil => intro acc he; cases he
  | cons a t ih =>
      intro acc he
      rcases List.mem_cons.mp he with rfl | he'
      · refine factors_fold_acc_mono names q limits ao t _ _ ?_
        unfold factorsStep
        dsimp only
        rw [accumulateFactors_origin _ _ _ _ _ ho]
        rw [if_pos]
        · exact List.mem_append_right _ (List.mem_singleton.mpr rfl)
        · intro hc
          have h2 : (1 : ℚ) - EPSILON < 0 := hc.1
          have h1 := EPSILON_lt_one
          linarith
      · exact ih _ he'

/-- The weighted sum of `getInstance` does not depend on the order of the
    factor list (rational addition is commutative; the sort only serves
    float reproducibility). -/
theorem weightedSum_perm (m : Mutator) {l1 l2 : List Fac} (h : l1.Perm l2) :
    weightedSum m l1 = weightedSum m l2 := by
  cases l1 with
  | nil =>
      rw [List.nil_perm.mp h]
  | cons a t =>
      cases l2 with
      | nil => exact absurd (List.nil_perm.mp h.symm) (by simp)
      | cons b s =>
          unfold weightedSum
          exact List.Perm.sum_eq (h.map _)

/-- The value computed by `getInstance`, with the final sort of the factor
    list removed (legitimate by `weightedSum_perm`). -/
theorem getInstanceSt_val (m : Mutator) (q : Loc) (ao : Bool) :
    (getInstanceSt m q ao).1 =
      weightedSum (collectAxisPoints m)
        (((List.insertionSort keyLe (collectAxisPoints m).deltas).foldl
          (factorsStep (getAxisNames m) (Loc.expand q (getAxisNames m))
            (getLimits (allLocations m) (Loc.expand q (getAxisNames m))) ao)
          ([], (collectAxisPoints m).axes)).1) := by
  unfold getInstanceSt getFactorsSt
  dsimp only
  exact weightedSum_perm _ (facSorted_perm _)

/-!  ## Claim C1  -/

/-- The on-axis weight in the single-axis system: with masters at 0 (the
    sentinel) and 1 on axis `pop`, the delta at `pop=1` receives factor `s`
    at query `pop=s`, whether by interpolation (0 < s < 1), exact hit
    (s ∈ {0, 1}) or extrapolation on either side. -/
theorem calcOnAxisFactor_single (s : ℚ) :
    calcOnAxisFactor [("pop", s)] "pop" [[("pop", 1)], [("pop", 0)]] [("pop", 1)] = s := by
  have hpop : ¬ ("pop" : String) = "origin" := by decide
  rcases lt_trichotomy s 0 with hs0 | hs0 | hs0
  · -- query below both masters: extrapolation from A = [0, 1]
    have h1 : s < 1 := by linarith
    simp only [calcOnAxisFactor, Loc.find, hpop, if_neg, if_false, if_pos, if_true,
      List.map_cons, List.map_nil, List.dedup, List.insertionSort, List.orderedInsert,
      List.filter]
    norm_num [hs0, not_lt.mpr hs0.le, h1, not_lt.mpr h1.le, lt_irrefl, List.filter,
      List.insertionSort, List.orderedInsert, lt_asymm hs0]
  · -- query at the origin master: the sentinel claims the point, factor 0 = s
    subst hs0
    norm_num [calcOnAxisFactor, Loc.find, hpop, List.dedup, List.insertionSort,
      List.orderedInsert, List.filter, EPSILON]
  · rcases lt_trichotomy s 1 with hs1 | hs1 | hs1
    · -- interpolation between 0 and 1
      norm_num [calcOnAxisFactor, Loc.find, hpop, List.dedup, List.insertionSort,
        List.orderedInsert, List.filter, hs0, hs1, not_lt.mpr hs0.le, not_lt.mpr hs1.le,
        lt_asymm hs0, lt_asymm hs1]
    · -- exact hit on the master
      subst hs1
      norm_num [calcOnAxisFactor, Loc.find, hpop, List.dedup, List.insertionSort,
        List.orderedInsert, List.filter, EPSILON]
    · -- query above both masters: extrapolation from B = [0, 1]
      have h0 : 0 < s := by linarith
      norm_num [calcOnAxisFactor, Loc.find, hpop, List.dedup, List.insertionSort,
        List.orderedInsert, List.filter, h0, hs1, lt_asymm h0, lt_asymm hs1,
        not_lt.mpr h0.le, not_lt.mpr hs1.le]

/-- The blended delta of the single-axis system at query `pop=s`: the origin
    delta always contributes `1 · (N - N)`; the master's factor `s` survives
    exactly when it is not within epsilon of zero. -/
theorem mC1_getInstance (N V s : ℚ) :
    (getInstanceSt (mC1 N V) [("pop", s)] false).1 =
      if EPSILON ≤ |s| then 1 * (N - N) + (s * (V - N) + 0) else 1 * (N - N) + 0 := by
  rw [getInstanceSt_val]
  have hnames : getAxisNames (mC1 N V) = ["pop"] := rfl
  have hq : Loc.expand [("pop", s)] ["pop"] = [("pop", s)] := rfl
  have hsort : List.insertionSort keyLe (collectAxisPoints (mC1 N V)).deltas =
      [([], N - N, some "origin"), ([("pop", 1)], V - N, some "test")] := rfl
  have haxes : (collectAxisPoints (mC1 N V)).axes = [("pop", [[("pop", 1)]])] := rfl
  rw [hnames, hq, hsort, haxes]
  simp only [List.foldl_cons, List.foldl_nil]
  have hstep1 : ∀ L, factorsStep ["pop"] [("pop", s)] L false
      ([], [("pop", [[("pop", 1)]])]) ([], N - N, some "origin") =
      ([(1, N - N, some "origin")], [("pop", [[("pop", 1)]])]) := by
    intro L
    unfold factorsStep
    dsimp only
    rw [accumulateFactors_origin _ _ _ _ _
      (show Loc.isOnAxis (Loc.expand [] ["pop"]) = .origin from rfl)]
    dsimp only
    rw [if_pos (show ¬ ((1 : ℚ) - EPSILON < 0 ∧ 0 < 1 + EPSILON) from by
      rw [keep_iff, abs_one]; exact EPSILON_lt_one.le)]
    rfl
  have hstep2 : ∀ L, factorsStep ["pop"] [("pop", s)] L false
      ([(1, N - N, some "origin")], [("pop", [[("pop", 1)]])])
      ([("pop", 1)], V - N, some "test") =
      (if ¬ (calcOnAxisFactor [("pop", s)] "pop" [[("pop", 1)], [("pop", 0)]] [("pop", 1)]
            - EPSILON < 0 ∧
          0 < calcOnAxisFactor [("pop", s)] "pop" [[("pop", 1)], [("pop", 0)]] [("pop", 1)]
            + EPSILON)
      then [(1, N - N, some "origin"),
        (calcOnAxisFactor [("pop", s)] "pop" [[("pop", 1)], [("pop", 0)]] [("pop", 1)],
          V - N, some "test")]
      else [(1, N - N, some "origin")], [("pop", [[("pop", 1)], [("pop", 0)]])]) := by
    intro L
    rfl
  rw [hstep1, hstep2, calcOnAxisFactor_single]
  by_cases hs : EPSILON ≤ |s|
  · rw [if_pos ((keep_iff s).mpr hs)]
    dsimp only
    rw [if_pos hs]
    rfl
  · rw [if_neg (fun hk => hs ((keep_iff s).mp hk))]
    dsimp only
    rw [if_neg hs]
    rfl

/-- The two-element and one-element weighted sums, written out. -/
theorem mC1_makeInstance (N V t : ℚ) :
    (makeInstanceSt (mC1 N V) [("pop", t)]).1 =
      (if EPSILON ≤ |t - 0| then 1 * (N - N) + ((t - 0) * (V - N) + 0)
       else 1 * (N - N) + 0) + N := by
  unfold makeInstanceSt
  rw [if_neg (by simp [Loc.isAmbivalent])]
  dsimp only
  have hsub : Loc.sub [("pop", t)] (mC1 N V).bias = [("pop", t - 0)] := rfl
  rw [hsub, mC1_getInstance]
  have hn : (getInstanceSt (mC1 N V) [("pop", t - 0)] false).2.1.neutral = some N := rfl
  rw [hn]
  rfl

/-- Claim C1: linearity along a single axis.  With neutral `N` and an on-axis
    master at `pop=1` of value `V` (stored delta `V - N`), `makeInstance` at
    `pop=t` is `N + t·(V - N)` exactly whenever the factor `t` survives the
    epsilon filter, is `N` otherwise (so it is within `ε·|V - N|` of the
    linear formula for every rational `t`), and the four literal queries of
    the spec's single-axis scenario evaluate as stated. -/
theorem C1_linearity :
    (∀ N V t : ℚ,
      |(makeInstanceSt (mC1 N V) [("pop", t)]).1 - (N + t * (V - N))| ≤ EPSILON * |V - N|) ∧
    (∀ N V t : ℚ,
      (makeInstanceSt (mC1 N V) [("pop", t)]).1 = N + t * (V - N) ∨
        (|t| < EPSILON ∧ (makeInstanceSt (mC1 N V) [("pop", t)]).1 = N)) ∧
    (makeInstanceSt (mC1 0 100) [("pop", 1/2)]).1 = 50 ∧
    (makeInstanceSt (mC1 0 100) [("pop", 1)]).1 = 100 ∧
    (makeInstanceSt (mC1 0 100) [("pop", -1)]).1 = -100 ∧
    (makeInstanceSt (mC1 0 100) [("pop", 2)]).1 = 200 := by
  have hval : ∀ N V t : ℚ,
      (makeInstanceSt (mC1 N V) [("pop", t)]).1 = N + t * (V - N) ∨
        (|t| < EPSILON ∧ (makeInstanceSt (mC1 N V) [("pop", t)]).1 = N) := by
    intro N V t
    rw [mC1_makeInstance]
    by_cases hs : EPSILON ≤ |t - 0|
    · left
      rw [if_pos hs]
      ring
    · right
      constructor
      · rw [sub_zero] at hs
        exact lt_of_not_le hs
      · rw [if_neg hs]
        ring
  refine ⟨?_, hval, by decide, by decide, by decide, by decide⟩
  intro N V t
  rcases hval N V t with h | ⟨ht, h⟩
  · rw [h]
    simp only [sub_self, abs_zero]
    exact mul_nonneg EPSILON_pos.le (abs_nonneg _)
  · rw [h]
    have : N - (N + t * (V - N)) = -(t * (V - N)) := by ring
    rw [this, abs_neg, abs_mul]
    exact mul_le_mul_of_nonneg_right ht.le (abs_nonneg _)

/-!  ## Claim C2  -/

/-- The system used to refute claim C2: neutral 0 and a single punched
    off-axis master of value 5 at `(pop=1, snap=1)`, inserted with the
    default `axisOnly=True`. -/
def mC2 : Mutator :=
  addDelta (setNeutral Mutator.empty 0) [("pop", 1), ("snap", 1)] 5 none true true

/-- Claim C2 is false as stated: after punching the off-axis master `5` at
    `(pop=1, snap=1)` with `axisOnly=True` (the `addDelta` default), the
    stored delta is `5 − getInstance(loc, axisOnly=True) = 5`, but evaluating
    `getInstance` at that same location with the same `axisOnly` mode yields
    `0`, not `5`: with `axisOnly=True` an off-axis delta is skipped by
    `_accumulateFactors`, so the punched value is not reproduced. -/
theorem C2_counterexample :
    dictGet mC2.deltas [("pop", 1), ("snap", 1)] = some (5, none) ∧
    (getInstanceSt mC2 [("pop", 1), ("snap", 1)] true).1 = 0 ∧ (0 : ℚ) ≠ 5 := by
  refine ⟨by decide, by decide, by norm_num⟩

/-- Claim C2, amended: `addDelta(location, obj, punch=true)` stores, under
    the (expanded) location key, exactly `obj` minus the currently
    interpolated instance `r = getInstance(location, axisOnly)`; immediate
    reproduction of `obj` by a subsequent `getInstance` does not hold in
    general. -/
theorem C2_punch_stores_difference : ∀ (m : Mutator) (loc : Loc) (obj : ℚ)
    (nm : Option String) (ao : Bool),
    dictGet (addDelta m loc obj nm true ao).deltas (Loc.expand loc (getAxisNames m)) =
      some (obj - (getInstanceSt m loc ao).1, nm) := by
  intro m loc obj nm ao
  unfold addDelta
  rw [if_pos rfl]
  exact dictGet_dictSet _ _ _

/-!  ## Claim C4  -/

/-- Claim C4 is false in its second half: at the query `pop=0.5` of the
    single-axis doctest system, with `axisOnly=false`, the origin delta is
    not omitted from the surviving factor list returned by `getFactors` — it
    is present with factor 1 (its math object is the zero stored by
    `setNeutral`). -/
theorem C4_counterexample :
    (1, 0, some "origin") ∈ (getFactorsSt (collectAxisPoints mSingle) [("pop", 1/2)] false).1 := by
  decide

/-- Claim C4, amended: a delta stored at an origin location receives factor 1
    from the factor engine for every query, limits table, axes cache and
    `axisOnly` mode, and its triple `(1, object, name)` is a member of the
    surviving factor list returned by `getFactors` in both `axisOnly` modes
    (the object it carries is the algebra's zero when it was stored by
    `setNeutral`, so the blend is unaffected). -/
theorem C4_origin_factor : ∀ (m : Mutator) (q : Loc) (ao : Bool) (key : Loc) (o : ℚ)
    (nm : Option String), (key, o, nm) ∈ m.deltas → Loc.isOrigin key = true →
    (∀ A limits, accumulateFactors A (Loc.expand q (getAxisNames m))
        (Loc.expand key (getAxisNames m)) limits ao = (1, A)) ∧
    (1, o, nm) ∈ (getFactorsSt m q ao).1 := by
  intro m q ao key o nm hmem horigin
  have ho : Loc.isOnAxis (Loc.expand key (getAxisNames m)) = .origin :=
    isOnAxis_of_all_zero (expand_all_zero _ horigin)
  constructor
  · intro A limits
    exact accumulateFactors_origin _ _ _ _ _ ho
  · unfold getFactorsSt
    dsimp only
    rw [mem_facSorted]
    refine factors_fold_mem_origin _ _ _ _ _ (key, o, nm) ho _ ?_
    exact ((List.perm_insertionSort keyLe m.deltas).mem_iff).mpr hmem

/-- Witness for `C4_origin_factor`: the origin delta of the single-axis
    doctest system at the query `pop=0.5`. -/
theorem C4_origin_factor_witness :
    ([] , (0 : ℚ), some "origin") ∈ mSingle.deltas ∧ Loc.isOrigin [] = true ∧
    (1, 0, some "origin") ∈ (getFactorsSt mSingle [("pop", 1/2)] false).1 :=
  ⟨by decide, by decide,
    (C4_origin_factor mSingle [("pop", 1/2)] false [] 0 (some "origin")
      (by decide) (by decide)).2⟩

/-!  ## Claim C6  -/

/-- Claim C6: with a set neutral `N`, a query at which no delta survives the
    factor computation returns the algebra's zero `0 * N`; `getInstance`
    is total (it never fails). -/
theorem C6_empty_sum : ∀ (m : Mutator) (q : Loc) (N : ℚ) (ao : Bool),
    m.neutral = some N →
    (getFactorsSt (collectAxisPoints m) q ao).1 = [] →
    (getInstanceSt m q ao).1 = 0 * N := by
  intro m q N ao hN hempty
  unfold getInstanceSt
  dsimp only
  rw [hempty]
  unfold weightedSum zeroOf
  dsimp only
  have : (getFactorsSt (collectAxisPoints m) q ao).2.1.neutral = some N := by
    unfold getFactorsSt
    exact hN
  rw [this]

/-- Witness for `C6_empty_sum`: a mutator with neutral 5 and no deltas at all
    (the `Mutator(5)` constructor) blends to `0 * 5` at the empty query. -/
theorem C6_empty_sum_witness :
    (Mutator.mk [] [] (some 5) []).neutral = some 5 ∧
    (getFactorsSt (collectAxisPoints (Mutator.mk [] [] (some 5) [])) [] false).1 = [] ∧
    (getInstanceSt (Mutator.mk [] [] (some 5) []) [] false).1 = 0 * 5 :=
  ⟨rfl, by decide, C6_empty_sum (Mutator.mk [] [] (some 5) []) [] 5 false rfl (by decide)⟩

/-!  ## Claim C5  -/

/-- Claim C5: the factor list returned by `getFactors` carries no factor
    within plus-or-minus epsilon of zero (the drop of line 210-212), and its
    entries are sorted by factor in descending order (the
    `deltas.sort(); deltas.reverse()` of lines 213-214). -/
theorem C5_factors_filtered_sorted : ∀ (m : Mutator) (q : Loc) (ao : Bool),
    (∀ e ∈ (getFactorsSt m q ao).1, EPSILON ≤ |e.1|) ∧
    (getFactorsSt m q ao).1.Pairwise (fun a b : Fac => b.1 ≤ a.1) := by
  intro m q ao
  constructor
  · intro e he
    unfold getFactorsSt at he
    dsimp only at he
    rw [mem_facSorted] at he
    rcases factors_fold_all_kept _ _ _ _ _ _ _ he with h | h
    · cases h
    · exact h
  · unfold getFactorsSt
    dsimp only
    rw [List.pairwise_reverse]
    exact (List.sorted_insertionSort facLe _).imp (fun h => h)

/-- Witness for `C5_factors_filtered_sorted`: the single-axis doctest system
    at `pop=0.5`, whose surviving factors are `[(1, origin), (0.5, test)]`. -/
theorem C5_factors_witness :
    EPSILON ≤ |(1 : ℚ)| ∧
    (getFactorsSt (collectAxisPoints mSingle) [("pop", 1/2)] false).1.Pairwise
      (fun a b : Fac => b.1 ≤ a.1) :=
  ⟨by
    have h := (C5_factors_filtered_sorted (collectAxisPoints mSingle) [("pop", 1/2)] false).1
      (1, 0, some "origin") (by decide)
    simpa using h,
   (C5_factors_filtered_sorted (collectAxisPoints mSingle) [("pop", 1/2)] false).2⟩

/-!  ## Claim C10  -/

/-- The invariant established by `_collectAxisPoints`: every on-axis delta's
    raw stored location is present in its axis's list of the `_axes` cache. -/
def ownKeysPresent (m : Mutator) (A : List (String × List Loc)) : Prop :=
  ∀ e ∈ m.deltas, ∀ ax, Loc.isOnAxis e.1 = .axis ax → e.1 ∈ axesGet A ax

theorem axesGet_axesSet_self (A : List (String × List Loc)) (k : String) (v : List Loc) :
    axesGet (axesSet A k v) k = v := by
  unfold axesSet
  split
  · next hc =>
      induction A with
      | nil => simp at hc
      | cons e t ih =>
          by_cases he : e.1 = k
          · simp [axesGet, he]
          · simp only [List.map_cons]
            rw [if_neg he]
            simp only [axesGet]
            rw [if_neg he]
            apply ih
            have hc' : k = e.1 ∨ (List.map (fun x => x.1) t).contains k = true := by
              simpa using hc
            rcases hc' with h | h
            · exact absurd h.symm he
            · exact h
  · next hc =>
      induction A with
      | nil => simp [axesGet]
      | cons e t ih =>
          have he : e.1 ≠ k := by
            intro h
            exact hc (by simp [List.contains_cons, h])
          simp only [List.cons_append, axesGet]
          rw [if_neg he]
          apply ih
          intro h
          exact hc (by simp only [List.map_cons, List.contains_cons, h, Bool.or_true])

theorem axesGet_map_set (A : List (String × List Loc)) (k ax : String) (v : List Loc)
    (h : ax ≠ k) :
    axesGet (A.map (fun e => if e.1 = k then (k, v) else e)) ax = axesGet A ax := by
  induction A with
  | nil => rfl
  | cons e t ih =>
      simp only [List.map_cons]
      by_cases hek : e.1 = k
      · rw [if_pos hek]
        simp only [axesGet]
        rw [if_neg (fun hka : k = ax => h hka.symm),
          if_neg (fun hea : e.1 = ax => h (hek.symm.trans hea).symm)]
        exact ih
      · rw [if_neg hek]
        simp only [axesGet]
        by_cases hea : e.1 = ax
        · rw [if_pos hea, if_pos hea]
        · rw [if_neg hea, if_neg hea]
          exact ih

theorem axesGet_append_ne (A : List (String × List Loc)) (k ax : String) (v : List Loc)
    (h : ax ≠ k) : axesGet (A ++ [(k, v)]) ax = axesGet A ax := by
  induction A with
  | nil =>
      simp only [List.nil_append, axesGet]
      rw [if_neg (fun hka : k = ax => h hka.symm)]
  | cons e t ih =>
      simp only [List.cons_append, axesGet]
      by_cases hea : e.1 = ax
      · rw [if_pos hea, if_pos hea]
      · rw [if_neg hea, if_neg hea]
        exact ih

theorem axesGet_axesSet_ne (A : List (String × List Loc)) (k ax : String) (v : List Loc)
    (h : ax ≠ k) : axesGet (axesSet A k v) ax = axesGet A ax := by
  unfold axesSet
  split
  · exact axesGet_map_set A k ax v h
  · exact axesGet_append_ne A k ax v h

/-- `collectStep` never removes an entry from an axis list. -/
theorem collectStep_mono (A : List (String × List Loc)) (e : Loc × ℚ × Option String)
    (x : Loc) (ax : String) (hx : x ∈ axesGet A ax) : x ∈ axesGet (collectStep A e) ax := by
  unfold collectStep
  rcases ho : Loc.isOnAxis e.1 with _ | k | _
  · exact hx
  · dsimp only
    split
    · exact hx
    · by_cases hak : ax = k
      · subst hak
        rw [axesGet_axesSet_self]
        exact List.mem_append_left _ hx
      · rw [axesGet_axesSet_ne _ _ _ _ hak]
        exact hx
  · exact hx

/-- Presence in an axis list survives the rest of the collect fold. -/
theorem collect_fold_mono (l : List (Loc × ℚ × Option String)) :
    ∀ (A : List (String × List Loc)) (x : Loc) (ax : String), x ∈ axesGet A ax →
    x ∈ axesGet (l.foldl collectStep A) ax := by
  induction l with
  | nil => exact fun A x ax h => h
  | cons a t ih => exact fun A x ax h => ih _ x ax (collectStep_mono A a x ax h)

/-- Whatever the starting cache, after `_collectAxisPoints` every on-axis
    delta's raw location is indexed under its axis. -/
theorem collectAxisPoints_ownKeys (m : Mutator) :
    ownKeysPresent m (collectAxisPoints m).axes := by
  unfold collectAxisPoints ownKeysPresent
  dsimp only
  have main : ∀ (l : List (Loc × ℚ × Option String)) (A : List (String × List Loc))
      (e : Loc × ℚ × Option String), e ∈ l → ∀ ax, Loc.isOnAxis e.1 = .axis ax →
      e.1 ∈ axesGet (l.foldl collectStep A) ax := by
    intro l
    induction l with
    | nil => intro A e he; cases he
    | cons a t ih =>
        intro A e he ax ho
        rcases List.mem_cons.mp he with rfl | he'
        · rw [List.foldl_cons]
          refine collect_fold_mono t _ _ _ ?_
          unfold collectStep
          rw [ho]
          dsimp only
          split
          · next hin => exact hin
          · rw [axesGet_axesSet_self]
            exact List.mem_append_right _ (List.mem_singleton.mpr rfl)
        · rw [List.foldl_cons]
          exact ih _ e he' ax ho
  intro e he ax ho
  exact main m.deltas m.axes e he ax ho

/-- The factor fold of `getFactors` only ever appends the origin sentinel to
    an axis list, so key presence is preserved. -/
theorem factors_fold_ownKeys (m : Mutator) (names : List String) (q : Loc)
    (limits : List (String × Triple)) (ao : Bool) (l : List (Loc × ℚ × Option String)) :
    ∀ acc : List Fac × List (String × List Loc), ownKeysPresent m acc.2 →
    ownKeysPresent m (l.foldl (factorsStep names q limits ao) acc).2 := by
  have step_pres : ∀ (acc : List Fac × List (String × List Loc))
      (e : Loc × ℚ × Option String), ownKeysPresent m acc.2 →
      ownKeysPresent m (factorsStep names q limits ao acc e).2 := by
    intro acc e hA
    unfold factorsStep
    dsimp only
    unfold accumulateFactors
    rcases ho : Loc.isOnAxis (Loc.expand e.1 names) with _ | k | _
    · exact hA
    · dsimp only
      split
      · intro d hd ax hax
        by_cases hak : ax = k
        · subst hak
          rw [axesGet_axesSet_self]
          unfold ensureSentinel
          split
          · exact hA d hd ax hax
          · exact List.mem_append_left _ (hA d hd ax hax)
        · rw [axesGet_axesSet_ne _ _ _ _ hak]
          exact hA d hd ax hax
      · intro d hd ax hax
        by_cases hak : ax = k
        · subst hak
          rw [axesGet_axesSet_self]
          unfold ensureSentinel
          split
          · exact hA d hd ax hax
          · exact List.mem_append_left _ (hA d hd ax hax)
        · rw [axesGet_axesSet_ne _ _ _ _ hak]
          exact hA d hd ax hax
    · dsimp only
      split
      · exact hA
      · exact hA
  induction l with
  | nil => exact fun acc h => h
  | cons a t ih => exact fun acc h => ih _ (step_pres acc a h)

/-- Two distinct members force length at least two. -/
theorem two_le_length_of_mem_ne {α : Type} {l : List α} {a b : α} (ha : a ∈ l) (hb : b ∈ l)
    (hne : a ≠ b) : 2 ≤ l.length := by
  cases l with
  | nil => cases ha
  | cons x t =>
      cases t with
      | nil =>
          rcases List.mem_singleton.mp ha with rfl
          rcases List.mem_singleton.mp hb with rfl
          exact absurd rfl hne
      | cons y u => simp [List.length_cons]

/-- Claim C10: whenever `_accumulateFactors` is reached through
    `getInstance` (so after `_collectAxisPoints`, whose invariant the factor
    fold preserves) for a delta classified on-axis, the list
    `self._axes[axis]` holds, after the sentinel insertion, both the delta's
    own raw location and the synthetic `((axis, 0),)` sentinel — two distinct
    entries — so its length is at least 2 and the `len(...) == 1` branch
    cannot be taken. -/
theorem C10_single_entry_unreachable :
    (∀ m : Mutator, ownKeysPresent m (collectAxisPoints m).axes) ∧
    (∀ (m : Mutator) (names : List String) (q : Loc) (limits : List (String × Triple))
       (ao : Bool) (l : List (Loc × ℚ × Option String))
       (acc : List Fac × List (String × List Loc)), ownKeysPresent m acc.2 →
       ownKeysPresent m (l.foldl (factorsStep names q limits ao) acc).2) ∧
    (∀ (m : Mutator) (A : List (String × List Loc)) (key : Loc) (o : ℚ)
       (nm : Option String) (ax : String), ownKeysPresent m A → (key, o, nm) ∈ m.deltas →
       Loc.isOnAxis key = .axis ax →
       2 ≤ (ensureSentinel (axesGet A ax) ax).length ∧
       ¬ (ensureSentinel (axesGet A ax) ax).length = 1) := by
  refine ⟨collectAxisPoints_ownKeys, fun m n q lim ao l acc h =>
    factors_fold_ownKeys m n q lim ao l acc h, ?_⟩
  intro m A key o nm ax hA hmem ho
  have hkey : key ∈ axesGet A ax := hA (key, o, nm) hmem ax ho
  have hkey' : key ∈ ensureSentinel (axesGet A ax) ax := by
    unfold ensureSentinel
    split
    · exact hkey
    · exact List.mem_append_left _ hkey
  have hsent : [(ax, (0 : ℚ))] ∈ ensureSentinel (axesGet A ax) ax := by
    unfold ensureSentinel
    split
    · next h => exact h
    · exact List.mem_append_right _ (List.mem_singleton.mpr rfl)
  have hne : key ≠ [(ax, (0 : ℚ))] := by
    intro hk
    rw [hk] at ho
    simp [Loc.isOnAxis] at ho
  have h2 := two_le_length_of_mem_ne hkey' hsent hne
  exact ⟨h2, by omega⟩

/-- Witness for `C10_single_entry_unreachable`: the single-axis doctest
    system; after `_collectAxisPoints` the `pop` list with sentinel holds the
    master's location and the sentinel, so its length is 2, not 1. -/
theorem C10_witness :
    2 ≤ (ensureSentinel (axesGet (collectAxisPoints mSingle).axes "pop") "pop").length ∧
    ¬ (ensureSentinel (axesGet (collectAxisPoints mSingle).axes "pop") "pop").length = 1 :=
  (C10_single_entry_unreachable.2.2 mSingle (collectAxisPoints mSingle).axes
    [("pop", 1)] 100 (some "test") "pop"
    (C10_single_entry_unreachable.1 mSingle) (by decide) (by decide))

/-!  ## Claim C9  -/

/-- Claim C9 is false for `makeInstance`: it hands `getInstance` the freshly
    built location `aLocation - self._bias`, so the caller's argument comes
    back unexpanded — here, querying the two-axis system at `pop=1` leaves
    the argument `[(pop, 1)]` even though its expansion would carry
    `snap=0`. -/
theorem C9_counterexample :
    (makeInstanceSt mOffAxis [("pop", 1)]).2.2 = [("pop", 1)] ∧
    Loc.expand [("pop", 1)] (getAxisNames mOffAxis) = [("pop", 1), ("snap", 0)] ∧
    ([("pop", (1 : ℚ))] : Loc) ≠ [("pop", 1), ("snap", 0)] := by
  refine ⟨rfl, by decide, by decide⟩

/-- Claim C9, amended: `getFactors` and `getInstance` do mutate their
    location argument in place — after the call the caller's location is its
    expansion by every axis name known to the mutator, with coordinate 0
    inserted for each missing axis — but `makeInstance` leaves its argument
    untouched (only the freshly subtracted internal location is expanded). -/
theorem C9_location_mutation : ∀ (m : Mutator) (loc : Loc) (ao : Bool),
    (getFactorsSt m loc ao).2.2 = Loc.expand loc (getAxisNames m) ∧
    (getInstanceSt m loc ao).2.2 = Loc.expand loc (getAxisNames m) ∧
    (makeInstanceSt m loc).2.2 = loc := by
  intro m loc ao
  refine ⟨rfl, rfl, ?_⟩
  unfold makeInstanceSt
  split <;> rfl

/-!  ## Claim C7  -/

/-- The bias selector picks one of the given locations. -/
theorem biasFromLocations_mem {locs : List Loc} {bias : Loc}
    (h : biasFromLocations locs = .ok bias) : bias ∈ locs := by
  unfold biasFromLocations at h
  cases locs with
  | nil => cases h
  | cons l0 rest =>
      simp only [Except.ok.injEq] at h
      have choice : ∀ (l : List Loc) (b : Loc),
          l.foldl (fun best c => if biasBetter (l0 :: rest) c best then c else best) b = b ∨
          l.foldl (fun best c => if biasBetter (l0 :: rest) c best then c else best) b ∈ l := by
        intro l
        induction l with
        | nil => exact fun b => Or.inl rfl
        | cons a t ih =>
            intro b
            rw [List.foldl_cons]
            rcases ih (if biasBetter (l0 :: rest) a b then a else b) with heq | hmem
            · rw [heq]
              split
              · exact Or.inr (List.mem_cons_self _ _)
              · exact Or.inl rfl
            · exact Or.inr (List.mem_cons_of_mem _ hmem)
      rcases choice rest l0 with heq | hmem
      · rw [← h, heq]
        exact List.mem_cons_self _ _
      · rw [← h]
        exact List.mem_cons_of_mem _ hmem

/-- Subtracting a location from itself yields an origin location. -/
theorem isOrigin_sub_self (l : Loc) : Loc.isOrigin (Loc.sub l l) = true := by
  unfold Loc.isOrigin Loc.sub Loc.norm
  rw [List.all_eq_true]
  intro p hp
  have hp' := (List.perm_insertionSort nameLe _).subset hp
  rcases List.mem_map.mp hp' with ⟨k, _, rfl⟩
  simp

/-- Claim C7: the builder reports `EmptyInput` exactly on the empty item
    list; it reports `NoNeutral` exactly when no item's location equals the
    computed bias relative to which it is an origin — which never happens,
    since the modelled bias selector always picks one of the input locations;
    in all other cases (any non-empty input) it returns `(bias, mutator)`
    with the bias sitting at some input item. -/
theorem C7_builder_errors : ∀ items : List (Loc × ℚ),
    (buildMutator items = .error .emptyInput ↔ items = []) ∧
    (buildMutator items = .error .noNeutral ↔
      (∃ bias, biasFromLocations ((List.insertionSort itemLe items).map (·.1)) = .ok bias ∧
        ∀ it ∈ items, ¬ Loc.isOrigin (Loc.sub it.1 bias) = true)) ∧
    (items ≠ [] → ∃ bias m, buildMutator items = .ok (bias, m) ∧
      ∃ it ∈ items, Loc.isOrigin (Loc.sub it.1 bias) = true) := by
  intro items
  by_cases hempty : items = []
  · subst hempty
    refine ⟨by simp [buildMutator, biasFromLocations, List.insertionSort], ?_, by simp⟩
    constructor
    · intro h
      simp [buildMutator, biasFromLocations, List.insertionSort] at h
    · rintro ⟨bias, hb, _⟩
      simp [List.insertionSort, biasFromLocations] at hb
  · have hsortne : List.insertionSort itemLe items ≠ [] := by
      intro h
      exact hempty (List.perm_nil.mp (h ▸ (List.perm_insertionSort itemLe items).symm))
    obtain ⟨s0, srest, hs⟩ : ∃ s0 srest, List.insertionSort itemLe items = s0 :: srest := by
      rcases hl : List.insertionSort itemLe items with _ | ⟨a, t⟩
      · exact absurd hl hsortne
      · exact ⟨a, t, rfl⟩
    obtain ⟨bias, hbias⟩ : ∃ bias,
        biasFromLocations ((List.insertionSort itemLe items).map (·.1)) = .ok bias := by
      rw [hs]
      exact ⟨_, rfl⟩
    have hbmem : bias ∈ (List.insertionSort itemLe items).map (·.1) :=
      biasFromLocations_mem hbias
    obtain ⟨itb, hitb, hitb1⟩ := List.mem_map.mp hbmem
    have hpred : (fun it : Loc × ℚ => Loc.isOrigin (Loc.sub it.1 bias)) itb = true := by
      dsimp only
      rw [hitb1]
      exact isOrigin_sub_self bias
    have hfind : ((List.insertionSort itemLe items).find?
        (fun it => Loc.isOrigin (Loc.sub it.1 bias))).isSome := by
      rw [List.find?_isSome]
      exact ⟨itb, hitb, hpred⟩
    obtain ⟨itf, hitf⟩ := Option.isSome_iff_exists.mp hfind
    have hok : ∃ m, buildMutator items = .ok (bias, m) := by
      unfold buildMutator
      simp only [hbias, hitf]
      exact ⟨_, rfl⟩
    obtain ⟨m3, hm3⟩ := hok
    refine ⟨⟨fun h => absurd h (by rw [hm3]; intro h; cases h), fun h => absurd h hempty⟩,
      ⟨fun h => absurd h (by rw [hm3]; intro h; cases h), ?_⟩,
      fun _ => ⟨bias, m3, hm3, itb, (List.perm_insertionSort itemLe items).subset hitb,
        hitb1 ▸ isOrigin_sub_self bias⟩⟩
    rintro ⟨bias', hb', hall⟩
    exfalso
    rw [hbias] at hb'
    injection hb' with hb'
    subst hb'
    exact hall itb ((List.perm_insertionSort itemLe items).subset hitb)
      (by rw [hitb1]; exact isOrigin_sub_self bias)

/-- Witness for `C7_builder_errors`: the empty input fails with `EmptyInput`;
    the one-item input `[(pop=1) → 5]` builds successfully. -/
theorem C7_builder_witness :
    buildMutator [] = .error .emptyInput ∧
    (∃ bias m, buildMutator [([("pop", 1)], (5 : ℚ))] = .ok (bias, m)) := by
  refine ⟨(C7_builder_errors []).1.mpr rfl, ?_⟩
  obtain ⟨bias, m, hm, -⟩ := (C7_builder_errors [([("pop", 1)], (5 : ℚ))]).2.2 (by simp)
  exact ⟨bias, m, hm⟩

/-!  ## Claim C8

     The factor computation reads the `_axes` cache only through
     `ensureSentinel (axesGet · ax) ax`, and only ever mutates it by
     inserting sentinels, so repeated queries see the same per-axis value
     sets; and the builder canonicalises its input by sorting, so permuted
     inputs build identical mutators.  -/

/-- Two `_axes` caches are equivalent when the sentinel-completed list of
    every axis coincides — the only view `_accumulateFactors` has of the
    cache. -/
def axesEquiv (A B : List (String × List Loc)) : Prop :=
  ∀ ax, ensureSentinel (axesGet A ax) ax = ensureSentinel (axesGet B ax) ax

theorem axesEquiv_refl (A : List (String × List Loc)) : axesEquiv A A := fun _ => rfl

theorem axesEquiv_trans {A B C : List (String × List Loc)} (h1 : axesEquiv A B)
    (h2 : axesEquiv B C) : axesEquiv A C := fun ax => (h1 ax).trans (h2 ax)

theorem sentinel_mem_ensureSentinel (l : List Loc) (ax : String) :
    [(ax, (0 : ℚ))] ∈ ensureSentinel l ax := by
  unfold ensureSentinel
  split
  · next h => exact h
  · exact List.mem_append_right _ (List.mem_singleton.mpr rfl)

theorem ensureSentinel_idem (l : List Loc) (ax : String) :
    ensureSentinel (ensureSentinel l ax) ax = ensureSentinel l ax := by
  conv_lhs => rw [ensureSentinel]
  rw [if_pos (sentinel_mem_ensureSentinel l ax)]

/-- `_accumulateFactors` returns the same factor on equivalent caches, and
    keeps the caches equivalent. -/
theorem accumulateFactors_congr {A B : List (String × List Loc)} (q dl : Loc)
    (limits : List (String × Triple)) (ao : Bool) (hAB : axesEquiv A B) :
    (accumulateFactors A q dl limits ao).1 = (accumulateFactors B q dl limits ao).1 ∧
    axesEquiv (accumulateFactors A q dl limits ao).2 (accumulateFactors B q dl limits ao).2 := by
  unfold accumulateFactors
  rcases ho : Loc.isOnAxis dl with _ | k | _
  · exact ⟨rfl, hAB⟩
  · dsimp only
    rw [hAB k]
    have hstate : axesEquiv (axesSet A k (ensureSentinel (axesGet B k) k))
        (axesSet B k (ensureSentinel (axesGet B k) k)) := by
      intro ax
      by_cases hak : ax = k
      · subst hak
        rw [axesGet_axesSet_self, axesGet_axesSet_self]
      · rw [axesGet_axesSet_ne _ _ _ _ hak, axesGet_axesSet_ne _ _ _ _ hak]
        exact hAB ax
    by_cases hlen : (ensureSentinel (axesGet B k) k).length = 1
    · rw [if_pos hlen, if_pos hlen]
      exact ⟨rfl, hstate⟩
    · rw [if_neg hlen, if_neg hlen]
      exact ⟨rfl, hstate⟩
  · dsimp only
    split
    · exact ⟨rfl, hAB⟩
    · exact ⟨rfl, hAB⟩

/-- `_accumulateFactors` leaves the cache equivalent to what it was. -/
theorem accumulateFactors_state_equiv (A : List (String × List Loc)) (q dl : Loc)
    (limits : List (String × Triple)) (ao : Bool) :
    axesEquiv (accumulateFactors A q dl limits ao).2 A := by
  unfold accumulateFactors
  rcases ho : Loc.isOnAxis dl with _ | k | _
  · exact axesEquiv_refl A
  · dsimp only
    have hstate : axesEquiv (axesSet A k (ensureSentinel (axesGet A k) k)) A := by
      intro ax
      by_cases hak : ax = k
      · subst hak
        rw [axesGet_axesSet_self, ensureSentinel_idem]
      · rw [axesGet_axesSet_ne _ _ _ _ hak]
    by_cases hlen : (ensureSentinel (axesGet A k) k).length = 1
    · rw [if_pos hlen]
      exact hstate
    · rw [if_neg hlen]
      exact hstate
  · dsimp only
    split
    · exact axesEquiv_refl A
    · exact axesEquiv_refl A

/-- One factor step behaves identically on equivalent states. -/
theorem factorsStep_congr (names : List String) (q : Loc) (limits : List (String × Triple))
    (ao : Bool) {acc1 acc2 : List Fac × List (String × List Loc)} (h1 : acc1.1 = acc2.1)
    (hAB : axesEquiv acc1.2 acc2.2) (e : Loc × ℚ × Option String) :
    (factorsStep names q limits ao acc1 e).1 = (factorsStep names q limits ao acc2 e).1 ∧
    axesEquiv (factorsStep names q limits ao acc1 e).2 (factorsStep names q limits ao acc2 e).2 := by
  unfold factorsStep
  dsimp only
  obtain ⟨hf, hs⟩ := accumulateFactors_congr q (Loc.expand e.1 names) limits ao hAB
  refine ⟨?_, hs⟩
  rw [hf, h1]

/-- The factor fold computes the same surviving list on equivalent states. -/
theorem factors_fold_congr (names : List String) (q : Loc) (limits : List (String × Triple))
    (ao : Bool) (l : List (Loc × ℚ × Option String)) :
    ∀ {acc1 acc2 : List Fac × List (String × List Loc)}, acc1.1 = acc2.1 →
    axesEquiv acc1.2 acc2.2 →
    (l.foldl (factorsStep names q limits ao) acc1).1 =
      (l.foldl (factorsStep names q limits ao) acc2).1 := by
  induction l with
  | nil => exact fun h1 _ => h1
  | cons a t ih =>
      intro acc1 acc2 h1 hAB
      obtain ⟨hh1, hh2⟩ := factorsStep_congr names q limits ao h1 hAB a
      exact ih hh1 hh2

/-- The factor fold leaves the cache equivalent to the starting cache. -/
theorem factors_fold_state_equiv (names : List String) (q : Loc)
    (limits : List (String × Triple)) (ao : Bool) (l : List (Loc × ℚ × Option String)) :
    ∀ acc : List Fac × List (String × List Loc),
    axesEquiv (l.foldl (factorsStep names q limits ao) acc).2 acc.2 := by
  induction l with
  | nil => exact fun _ => axesEquiv_refl _
  | cons a t ih =>
      intro acc
      refine axesEquiv_trans (ih _) ?_
      unfold factorsStep
      dsimp only
      exact accumulateFactors_state_equiv _ _ _ _ _

/-- `_collectAxisPoints` is the identity once every on-axis key is already
    indexed. -/
theorem collect_fold_id (l : List (Loc × ℚ × Option String)) (A : List (String × List Loc))
    (h : ∀ e ∈ l, ∀ ax, Loc.isOnAxis e.1 = .axis ax → e.1 ∈ axesGet A ax) :
    l.foldl collectStep A = A := by
  induction l with
  | nil => rfl
  | cons a t ih =>
      rw [List.foldl_cons]
      have hstep : collectStep A a = A := by
        unfold collectStep
        rcases ho : Loc.isOnAxis a.1 with _ | k | _
        · rfl
        · dsimp only
          rw [if_pos (h a (List.mem_cons_self _ _) k ho)]
        · rfl
      rw [hstep]
      exact ih (fun e he ax hax => h e (List.mem_cons_of_mem _ he) ax hax)

/-- `weightedSum` only reads the neutral. -/
theorem weightedSum_congr {m m' : Mutator} (h : m.neutral = m'.neutral) (l : List Fac) :
    weightedSum m l = weightedSum m' l := by
  unfold weightedSum zeroOf
  cases l with
  | nil => rw [h]
  | cons a t => rfl

/-- Repeating a query on the mutator state returned by `getInstance` yields
    the same value: the first query only added sentinels to the `_axes`
    cache, which the factor computation cannot observe. -/
theorem getInstance_repeat (m : Mutator) (q : Loc) (ao : Bool) :
    (getInstanceSt ((getInstanceSt m q ao).2.1) q ao).1 = (getInstanceSt m q ao).1 := by
  have hout : (getInstanceSt m q ao).2.1 =
      Mutator.mk m.deltas
        (((List.insertionSort keyLe m.deltas).foldl
          (factorsStep (getAxisNames m) (Loc.expand q (getAxisNames m))
            (getLimits (allLocations m) (Loc.expand q (getAxisNames m))) ao)
          ([], (collectAxisPoints m).axes)).2)
        m.neutral m.bias := rfl
  rw [hout]
  rw [getInstanceSt_val, getInstanceSt_val]
  have hA2 : ownKeysPresent m
      (((List.insertionSort keyLe m.deltas).foldl
        (factorsStep (getAxisNames m) (Loc.expand q (getAxisNames m))
          (getLimits (allLocations m) (Loc.expand q (getAxisNames m))) ao)
        ([], (collectAxisPoints m).axes)).2) :=
    factors_fold_ownKeys m _ _ _ ao _ ([], (collectAxisPoints m).axes)
      (collectAxisPoints_ownKeys m)
  have hcoll : (collectAxisPoints (Mutator.mk m.deltas
      (((List.insertionSort keyLe m.deltas).foldl
        (factorsStep (getAxisNames m) (Loc.expand q (getAxisNames m))
          (getLimits (allLocations m) (Loc.expand q (getAxisNames m))) ao)
        ([], (collectAxisPoints m).axes)).2)
      m.neutral m.bias)).axes =
      (((List.insertionSort keyLe m.deltas).foldl
        (factorsStep (getAxisNames m) (Loc.expand q (getAxisNames m))
          (getLimits (allLocations m) (Loc.expand q (getAxisNames m))) ao)
        ([], (collectAxisPoints m).axes)).2) := by
    have : (collectAxisPoints (Mutator.mk m.deltas
        (((List.insertionSort keyLe m.deltas).foldl
          (factorsStep (getAxisNames m) (Loc.expand q (getAxisNames m))
            (getLimits (allLocations m) (Loc.expand q (getAxisNames m))) ao)
          ([], (collectAxisPoints m).axes)).2)
        m.neutral m.bias)).axes =
        m.deltas.foldl collectStep
          (((List.insertionSort keyLe m.deltas).foldl
            (factorsStep (getAxisNames m) (Loc.expand q (getAxisNames m))
              (getLimits (allLocations m) (Loc.expand q (getAxisNames m))) ao)
            ([], (collectAxisPoints m).axes)).2) := rfl
    rw [this]
    exact collect_fold_id m.deltas _ (fun e he ax hax => hA2 e he ax hax)
  rw [hcoll]
  refine (weightedSum_congr rfl _).trans ?_
  refine congrArg _ ?_
  refine factors_fold_congr _ _ _ ao _ rfl ?_
  exact factors_fold_state_equiv _ _ _ ao _ ([], (collectAxisPoints m).axes)

/-- Claim C8: determinism.  Reordering the input items does not change the
    built mutator at all (the builder sorts first, and the sort is canonical
    for permutations), hence not any query result either; and repeating an
    identical query on the mutator state left behind by a query returns the
    identical result. -/
theorem C8_determinism :
    (∀ items items' : List (Loc × ℚ), items.Perm items' →
      buildMutator items = buildMutator items') ∧
    (∀ (m : Mutator) (q : Loc) (ao : Bool),
      (getInstanceSt ((getInstanceSt m q ao).2.1) q ao).1 = (getInstanceSt m q ao).1) := by
  constructor
  · intro items items' hperm
    unfold buildMutator
    rw [List.eq_of_perm_of_sorted
      ((List.perm_insertionSort itemLe items).trans
        (hperm.trans (List.perm_insertionSort itemLe items').symm))
      (List.sorted_insertionSort itemLe items)
      (List.sorted_insertionSort itemLe items')]
  · exact getInstance_repeat

/-- Witness for `C8_determinism`: two orderings of the two-item system build
    the same mutator, and the single-axis doctest query repeats
    identically. -/
theorem C8_determinism_witness :
    buildMutator [([("pop", 1)], (100 : ℚ)), ([], 0)] =
      buildMutator [([], 0), ([("pop", 1)], (100 : ℚ))] ∧
    (getInstanceSt ((getInstanceSt mSingle [("pop", 1/2)] false).2.1)
      [("pop", 1/2)] false).1 = (getInstanceSt mSingle [("pop", 1/2)] false).1 :=
  ⟨C8_determinism.1 _ _ (List.Perm.swap _ _ _),
   C8_determinism.2 mSingle [("pop", 1/2)] false⟩

/-!  ## Claim C3

     At the origin-relative query every coordinate of the (expanded) query
     location is zero.  Under the wellformedness hypotheses below every
     non-origin delta then receives factor 0 — the on-axis branch because the
     sentinel claims the query point exactly, the off-axis branch because at
     an all-zero query every limits triple degenerates to `(None, M, None)` —
     so only origin deltas survive, each carrying the zero object.  -/

theorem find_eq_zero_of_all_zero {l : Loc} (h : ∀ p ∈ l, p.2 = 0) (k : String) :
    Loc.find l k = 0 := by
  induction l with
  | nil => rfl
  | cons p t ih =>
      unfold Loc.find
      split
      · exact h p (List.mem_cons_self _ _)
      · exact ih (fun x hx => h x (List.mem_cons_of_mem _ hx))

theorem find_not_mem {l : Loc} {k : String} (h : k ∉ Loc.dims l) : Loc.find l k = 0 := by
  induction l with
  | nil => rfl
  | cons p t ih =>
      unfold Loc.dims at h
      simp only [List.map_cons, List.mem_cons, not_or] at h
      unfold Loc.find
      rw [if_neg (fun hpk : p.1 = k => h.1 hpk.symm)]
      exact ih h.2

theorem find_append (l r : Loc) (k : String) :
    Loc.find (l ++ r) k = if k ∈ Loc.dims l then Loc.find l k else Loc.find r k := by
  induction l with
  | nil => simp [Loc.dims, Loc.find]
  | cons p t ih =>
      by_cases hpk : p.1 = k
      · have hmem : k ∈ Loc.dims (p :: t) := by
          unfold Loc.dims
          rw [List.map_cons]
          exact List.mem_cons.mpr (Or.inl hpk.symm)
        rw [if_pos hmem]
        simp only [List.cons_append]
        unfold Loc.find
        rw [if_pos hpk, if_pos hpk]
      · have hcons : k ∈ Loc.dims (p :: t) ↔ k ∈ Loc.dims t := by
          unfold Loc.dims
          rw [List.map_cons, List.mem_cons]
          exact ⟨fun h => h.resolve_left (fun h' => hpk h'.symm), Or.inr⟩
        simp only [List.cons_append]
        unfold Loc.find
        rw [if_neg hpk, ih]
        by_cases hkt : k ∈ Loc.dims t
        · rw [if_pos hkt, if_pos (hcons.mpr hkt)]
          unfold Loc.find
          rw [if_neg hpk]
        · rw [if_neg hkt, if_neg (fun h => hkt (hcons.mp h))]
          conv_lhs => unfold Loc.find

/-- Lookup is invariant under permutation when the keys are distinct. -/
theorem find_perm {l₁ l₂ : Loc} (hp : l₁.Perm l₂) (hnd : (l₁.map (·.1)).Nodup) (k : String) :
    Loc.find l₁ k = Loc.find l₂ k := by
  induction hp with
  | nil => rfl
  | cons x p ih =>
      unfold Loc.find
      split
      · rfl
      · refine ih ?_
        simp only [List.map_cons, List.nodup_cons] at hnd
        exact hnd.2
  | swap x y t =>
      show Loc.find (y :: x :: t) k = Loc.find (x :: y :: t) k
      by_cases hy : y.1 = k <;> by_cases hx : x.1 = k
      · exfalso
        simp only [List.map_cons, List.nodup_cons, List.mem_cons, not_or] at hnd
        exact hnd.1.1 (hy.trans hx.symm)
      · unfold Loc.find
        rw [if_pos hy, if_neg hx]
        unfold Loc.find
        rw [if_pos hy]
      · unfold Loc.find
        rw [if_neg hy, if_pos hx]
        unfold Loc.find
        rw [if_pos hx]
      · unfold Loc.find
        rw [if_neg hy, if_neg hx]
        unfold Loc.find
        rw [if_neg hx, if_neg hy]
  | trans h1 _ ih1 ih2 =>
      refine (ih1 hnd).trans (ih2 ?_)
      exact ((h1.map (·.1)).nodup_iff).mp hnd

/-- `expand` does not change any coordinate lookup (on locations and name
    lists without duplicates). -/
theorem find_expand {l : Loc} (hnd : (l.map (·.1)).Nodup) {names : List String}
    (hnames : names.Nodup) (k : String) :
    Loc.find (Loc.expand l names) k = Loc.find l k := by
  unfold Loc.expand Loc.norm
  have haddkeys : (((names.filter fun k => decide (k ∉ Loc.dims l)).map
      (fun k => (k, (0 : ℚ)))).map (·.1)) = names.filter (fun k => decide (k ∉ Loc.dims l)) := by
    rw [List.map_map]
    have hid : ((fun (x : String × ℚ) => x.1) ∘ fun k => (k, (0 : ℚ))) = id := by
      funext x
      rfl
    rw [hid, List.map_id]
  have hndX : (((l ++ (names.filter fun k => decide (k ∉ Loc.dims l)).map
      (fun k => (k, (0 : ℚ)))).map (·.1))).Nodup := by
    rw [List.map_append]
    refine List.Nodup.append hnd ?_ ?_
    · rw [haddkeys]
      exact hnames.filter _
    · intro a ha hb
      rw [haddkeys] at hb
      have hcond := (List.mem_filter.mp hb).2
      simp only [decide_eq_true_eq] at hcond
      exact hcond ha
  rw [find_perm (List.perm_insertionSort nameLe _)
    (((List.perm_insertionSort nameLe _).map (·.1)).nodup_iff.mpr hndX) k]
  rw [find_append]
  by_cases hkl : k ∈ Loc.dims l
  · rw [if_pos hkl]
  · rw [if_neg hkl, find_not_mem hkl]
    refine find_eq_zero_of_all_zero ?_ k
    intro p hp
    rcases List.mem_map.mp hp with ⟨n, _, rfl⟩
    rfl

/-- The non-zero entries of an expanded location are a permutation of those
    of the original (only zero pairs are added). -/
theorem filter_nonzero_expand (l : Loc) (names : List String) :
    ((Loc.expand l names).filter (fun p => decide (p.2 ≠ 0))).Perm
      (l.filter (fun p => decide (p.2 ≠ 0))) := by
  unfold Loc.expand Loc.norm
  refine ((List.perm_insertionSort nameLe _).filter _).trans ?_
  rw [List.filter_append]
  have hz : (((names.filter fun k => decide (k ∉ Loc.dims l)).map fun k => (k, (0 : ℚ))).filter
      (fun p => decide (p.2 ≠ 0))) = [] := by
    rw [List.filter_eq_nil_iff]
    intro p hp
    rcases List.mem_map.mp hp with ⟨n, _, rfl⟩
    simp
  rw [hz, List.append_nil]

/-- Expansion does not change the on-axis classification. -/
theorem isOnAxis_expand (l : Loc) (names : List String) :
    Loc.isOnAxis (Loc.expand l names) = Loc.isOnAxis l := by
  unfold Loc.isOnAxis
  have hp := filter_nonzero_expand l names
  rcases h2 : l.filter (fun p => decide (p.2 ≠ 0)) with _ | ⟨a, t⟩
  · rw [h2] at hp
    rw [List.perm_nil.mp hp, h2]
  · rcases t with _ | ⟨b, u⟩
    · rw [h2] at hp
      rw [List.perm_singleton.mp hp, h2]
    · rw [h2] at hp
      rcases h1 : (Loc.expand l names).filter (fun p => decide (p.2 ≠ 0)) with _ | ⟨c, _ | ⟨d, v⟩⟩
      · rw [h1] at hp
        exact absurd hp.length_eq (by simp)
      · rw [h1] at hp
        exact absurd hp.length_eq (by simp [List.length_cons])
      · rw [h1, h2]
        rfl

/-- A location is an origin exactly when `isOnAxis` classifies it as one. -/
theorem isOrigin_iff_onAxis_origin (l : Loc) :
    Loc.isOrigin l = true ↔ Loc.isOnAxis l = .origin := by
  unfold Loc.isOrigin Loc.isOnAxis
  rw [List.all_eq_true]
  constructor
  · intro h
    have hf : l.filter (fun p => decide (p.2 ≠ 0)) = [] := by
      rw [List.filter_eq_nil_iff]
      intro p hp
      simpa using of_decide_eq_true (h p hp)
    rw [hf]
    rfl
  · intro h p hp
    by_contra hc
    have hmemf : p ∈ l.filter (fun p => decide (p.2 ≠ 0)) :=
      List.mem_filter.mpr ⟨hp, by simpa using hc⟩
    rcases hf : l.filter (fun p => decide (p.2 ≠ 0)) with _ | ⟨a, _ | ⟨b, u⟩⟩
    · rw [hf] at hmemf
      cases hmemf
    · rw [hf] at h
      exact OnAxis.noConfusion h
    · rw [hf] at h
      exact OnAxis.noConfusion h

/-- An on-axis location's axis, with its (unique) non-zero coordinate. -/
theorem isOnAxis_axis_spec {l : Loc} {ax : String} (h : Loc.isOnAxis l = .axis ax) :
    ∃ p ∈ l, p.1 = ax ∧ p.2 ≠ 0 := by
  unfold Loc.isOnAxis at h
  rcases hf : l.filter (fun p => decide (p.2 ≠ 0)) with _ | ⟨a, _ | ⟨b, u⟩⟩
  · rw [hf] at h
    exact OnAxis.noConfusion h
  · rw [hf] at h
    have ha : a ∈ l.filter (fun p => decide (p.2 ≠ 0)) := by
      rw [hf]
      exact List.mem_cons_self _ _
    obtain ⟨hal, hz⟩ := List.mem_filter.mp ha
    have hax : a.1 = ax := by
      injection h
    exact ⟨a, hal, hax, by simpa using hz⟩
  · rw [hf] at h
    exact OnAxis.noConfusion h

/-- An off-axis location has a non-zero coordinate. -/
theorem off_exists_nonzero {l : Loc} (h : Loc.isOnAxis l = .off) :
    ∃ p ∈ l, p.2 ≠ 0 := by
  unfold Loc.isOnAxis at h
  rcases hf : l.filter (fun p => decide (p.2 ≠ 0)) with _ | ⟨a, t⟩
  · rw [hf] at h
    exact OnAxis.noConfusion h
  · have ha : a ∈ l.filter (fun p => decide (p.2 ≠ 0)) := by
      rw [hf]
      exact List.mem_cons_self _ _
    obtain ⟨hal, hz⟩ := List.mem_filter.mp ha
    exact ⟨a, hal, by simpa using hz⟩

/-- A key present in a nodup-key location determines the lookup. -/
theorem find_of_mem_nodup {l : Loc} {p : String × ℚ} (hp : p ∈ l)
    (hnd : (l.map (·.1)).Nodup) : Loc.find l p.1 = p.2 := by
  induction l with
  | nil => cases hp
  | cons a t ih =>
      simp only [List.map_cons, List.nodup_cons] at hnd
      rcases List.mem_cons.mp hp with rfl | hp'
      · unfold Loc.find
        rw [if_pos rfl]
      · unfold Loc.find
        rw [if_neg (fun hak : a.1 = p.1 =>
          hnd.1 (hak.symm ▸ List.mem_map.mpr ⟨p, hp', rfl⟩))]
        exact ih hp' hnd.2

/-- Every dimension of a stored delta is among the mutator's axis names. -/
theorem mem_getAxisNames {m : Mutator} {e : Loc × ℚ × Option String} (he : e ∈ m.deltas)
    {k : String} (hk : k ∈ Loc.dims e.1) : k ∈ getAxisNames m := by
  unfold getAxisNames
  rw [List.mem_dedup]
  have main : ∀ (l : List (Loc × ℚ × Option String)) (acc : List String),
      (k ∈ acc ∨ ∃ e ∈ l, k ∈ Loc.dims e.1) →
      k ∈ l.foldl (fun acc e => acc ++ Loc.dims e.1) acc := by
    intro l
    induction l with
    | nil =>
        rintro acc (h | ⟨e', he', -⟩)
        · exact h
        · cases he'
    | cons a t ih =>
        rintro acc (h | ⟨e', he', hk'⟩)
        · exact ih _ (Or.inl (List.mem_append_left _ h))
        · rcases List.mem_cons.mp he' with rfl | he''
          · exact ih _ (Or.inl (List.mem_append_right _ hk'))
          · exact ih _ (Or.inr ⟨e', he'', hk'⟩)
  exact main m.deltas [] (Or.inr ⟨e, he, hk⟩)

/-- Expansion makes every given name a dimension. -/
theorem mem_dims_expand (l : Loc) {names : List String} {k : String} (hk : k ∈ names) :
    k ∈ Loc.dims (Loc.expand l names) := by
  unfold Loc.expand Loc.norm Loc.dims
  rw [List.mem_map]
  by_cases hkl : k ∈ Loc.dims l
  · rcases List.mem_map.mp hkl with ⟨p, hp, rfl⟩
    exact ⟨p, (List.perm_insertionSort nameLe _).mem_iff.mpr (List.mem_append_left _ hp), rfl⟩
  · refine ⟨(k, 0), (List.perm_insertionSort nameLe _).mem_iff.mpr
      (List.mem_append_right _ ?_), rfl⟩
    exact List.mem_map.mpr ⟨k, List.mem_filter.mpr ⟨hk, decide_eq_true hkl⟩, rfl⟩

/-- Generic fold invariance. -/
theorem foldl_inv {α β : Type} {P : α → Prop} {step : α → β → α} {l : List β}
    (hstep : ∀ a b, b ∈ l → P a → P (step a b)) : ∀ a, P a → P (l.foldl step a) := by
  induction l with
  | nil => exact fun a h => h
  | cons x t ih =>
      intro a h
      exact ih (fun a b hb hp => hstep a b (List.mem_cons_of_mem _ hb) hp) _
        (hstep a x (List.mem_cons_self _ _) h)

theorem vput_ne_nil (d : VDict) (k : ℚ) (l : Loc) : vput d k l ≠ [] := by
  unfold vput
  split
  · next hc =>
      intro h
      rw [List.map_eq_nil_iff.mp h] at hc
      simp at hc
  · simp

/-- `bucketPut` never empties the `'='` bucket. -/
theorem bucketPut_eq_ne (b : Buckets) (cur value : ℚ) (l : Loc) (h : b.eq ≠ []) :
    (bucketPut b cur value l).eq ≠ [] := by
  unfold bucketPut
  split
  · exact h
  · split
    · exact h
    · exact vput_ne_nil _ _ _

/-- Invariant of the bucket table: every dimension's `'='` bucket holds at
    least the synthetic origin entry. -/
def eqNonempty (t : List (String × Buckets)) : Prop := ∀ e ∈ t, e.2.eq ≠ []

theorem limitUpdate_inv {t : List (String × Buckets)} (name : String) (cur value : ℚ)
    (l : Loc) (h : eqNonempty t) : eqNonempty (limitUpdate t name cur value l) := by
  intro e he
  unfold limitUpdate at he
  rcases List.mem_map.mp he with ⟨e', he', heq⟩
  by_cases hn : e'.1 = name
  · rw [if_pos hn] at heq
    rw [← heq]
    exact bucketPut_eq_ne _ _ _ _ (h e' he')
  · rw [if_neg hn] at heq
    rw [← heq]
    exact h e' he'

theorem initBuckets_zero_eq : (initBuckets 0).eq = [(0, [[]])] := by
  unfold initBuckets
  rw [if_neg (lt_irrefl 0), if_neg (lt_irrefl 0)]

/-- The first component of `common` carries the query's own coordinates, so
    it is all-zero at an all-zero query. -/
theorem common_fst_all_zero {current l : Loc} (hc : ∀ p ∈ current, p.2 = 0) {a b : Loc}
    (h : Loc.common current l = some (a, b)) : ∀ pa ∈ a, pa.2 = 0 := by
  unfold Loc.common at h
  dsimp only at h
  split at h
  · cases h
  · injection h with h'
    intro pa hpa
    have ha : a = _ := (congrArg Prod.fst h').symm
    rw [ha] at hpa
    rcases List.mem_map.mp hpa with ⟨k, _, rfl⟩
    exact find_eq_zero_of_all_zero hc k

/-- At an all-zero query, every dimension of the bucket table keeps a
    non-empty `'='` bucket (seeded by the synthetic origin entry). -/
theorem collectLimits_eqNonempty (locs : List Loc) (current : Loc)
    (hc : ∀ p ∈ current, p.2 = 0) : eqNonempty (collectLimits locs current) := by
  unfold collectLimits
  refine foldl_inv ?_ [] (fun e he => absurd he (List.not_mem_nil e))
  intro t l _ ht
  cases hcom : Loc.common current l with
  | none =>
      simpa only [hcom] using ht
  | some ab =>
      obtain ⟨a, b⟩ := ab
      simp only [hcom]
      have ha := common_fst_all_zero hc hcom
      refine foldl_inv ?_ t ht
      intro t' p _ ht'
      dsimp only
      have hext : eqNonempty (if (t'.map (·.1)).contains p.1 then t'
          else t' ++ [(p.1, initBuckets (Loc.find a p.1))]) := by
        split
        · exact ht'
        · intro e he
          rcases List.mem_append.mp he with h1 | h1
          · exact ht' e h1
          · rcases List.mem_singleton.mp h1 with rfl
            dsimp only
            rw [find_eq_zero_of_all_zero ha, initBuckets_zero_eq]
            simp
      exact limitUpdate_inv _ _ _ _ hext

/-- With a non-empty `'='` bucket the aggregation always emits a triple of
    the form `(None, M, None)`. -/
theorem aggregateLimits_form {lims : Buckets} (h : lims.eq ≠ []) :
    ∃ M, aggregateLimits lims = some (none, some M, none) := by
  unfold aggregateLimits
  rcases he : lims.eq with _ | ⟨e0, et⟩
  · exact absurd he h
  cases hmin : (List.insertionSort (· ≤ ·) (lims.gt.map (·.1))).getLast? with
  | none =>
      cases hmax : (List.insertionSort (· ≤ ·) (lims.lt.map (·.1))).head? with
      | none => exact ⟨.num e0.1, by simp only [hmin, hmax, he]⟩
      | some mx => exact ⟨.num e0.1, by simp only [hmin, hmax, he]⟩
  | some mn =>
      cases hmax : (List.insertionSort (· ≤ ·) (lims.lt.map (·.1))).head? with
      | none => exact ⟨.dictM lims.eq, by simp only [hmin, hmax, he]⟩
      | some mx => exact ⟨.num e0.1, by simp only [hmin, hmax, he]⟩

/-- Members of the aggregation fold either come from the accumulator or are
    emitted for some table entry. -/
theorem getLimits_fold_mem {table : List (String × Buckets)} :
    ∀ (acc : List (String × Triple)) (x : String × Triple),
    x ∈ table.foldl (fun acc e =>
      match aggregateLimits e.2 with
      | some t => acc ++ [(e.1, t)]
      | none => acc) acc →
    x ∈ acc ∨ ∃ e ∈ table, aggregateLimits e.2 = some x.2 := by
  induction table with
  | nil => exact fun acc x hx => Or.inl hx
  | cons e t ih =>
      intro acc x hx
      rw [List.foldl_cons] at hx
      rcases ih _ x hx with h1 | ⟨e', he', h⟩
      · revert h1
        cases hagg : aggregateLimits e.2 with
        | none =>
            intro h1
            exact Or.inl h1
        | some tr =>
            intro h1
            rcases List.mem_append.mp h1 with h2 | h2
            · exact Or.inl h2
            · rcases List.mem_singleton.mp h2 with rfl
              exact Or.inr ⟨e, List.mem_cons_self _ _, by rw [hagg]⟩
      · exact Or.inr ⟨e', List.mem_cons_of_mem _ he', h⟩

/-- Claim C3's shape lemma: at an all-zero query every emitted limits triple
    has `below = None` and `above = None`. -/
theorem getLimits_allzero_form {locs : List Loc} {current : Loc}
    (hc : ∀ p ∈ current, p.2 = 0) :
    ∀ nt ∈ getLimits locs current, nt.2.1 = none ∧ nt.2.2.2 = none := by
  intro nt hnt
  unfold getLimits at hnt
  rcases getLimits_fold_mem [] nt hnt with h | ⟨e, he, h⟩
  · cases h
  · obtain ⟨M, hM⟩ := aggregateLimits_form (collectLimits_eqNonempty locs current hc e he)
    rw [hM] at h
    injection h with h
    rw [← h]
    exact ⟨rfl, rfl⟩

/-- Generic fold: once a designated element has been processed, a property
    preserved by every step holds of the result. -/
theorem foldl_reaches {α β : Type} {P : α → Prop} {step : α → β → α}
    (hmono : ∀ a b, P a → P (step a b)) {c : β} (hset : ∀ a, P (step a c)) :
    ∀ (l : List β), c ∈ l → ∀ a, P (l.foldl step a) := by
  intro l
  induction l with
  | nil => intro h; cases h
  | cons x t ih =>
      intro hb a
      rw [List.foldl_cons]
      rcases List.mem_cons.mp hb with rfl | hb'
      · exact foldl_inv (fun a b _ h => hmono a b h) _ (hset a)
      · exact ih hb' _

theorem head?_some_of_mem {α : Type} {l : List α} {a : α} (h : a ∈ l) :
    ∃ b, l.head? = some b := by
  cases l with
  | nil => cases h
  | cons x t => exact ⟨x, rfl⟩

/-- `limitUpdate` does not change the set of dimensions in the table. -/
theorem limitUpdate_keys (t : List (String × Buckets)) (n : String) (c v : ℚ) (l : Loc) :
    (limitUpdate t n c v l).map (·.1) = t.map (·.1) := by
  unfold limitUpdate
  rw [List.map_map]
  refine List.map_congr_left ?_
  intro e _
  by_cases h : e.1 = n
  · simp [h]
  · simp [h]

/-- At an all-zero query a dimension shared with a master passes the
    sign filter of `common`, and the master's coordinate there is kept. -/
theorem common_mem {current l : Loc} (hc : ∀ p ∈ current, p.2 = 0) {k : String}
    (hkc : k ∈ Loc.dims current) (hkl : k ∈ Loc.dims l) :
    ∃ a b, Loc.common current l = some (a, b) ∧ (k, Loc.find l k) ∈ b := by
  unfold Loc.common
  dsimp only
  have hcond : (decide (k ∈ Loc.dims l) &&
      !(decide (Loc.find current k ≠ 0) && decide (Loc.find l k ≠ 0) &&
        ((decide (Loc.find current k < 0) && decide (0 < Loc.find l k)) ||
         (decide (Loc.find l k < 0) && decide (0 < Loc.find current k))))) = true := by
    rw [find_eq_zero_of_all_zero hc]
    simp [hkl]
  have hmem : k ∈ (Loc.dims current).filter (fun k =>
      decide (k ∈ Loc.dims l) &&
      !(decide (Loc.find current k ≠ 0) && decide (Loc.find l k ≠ 0) &&
        ((decide (Loc.find current k < 0) && decide (0 < Loc.find l k)) ||
         (decide (Loc.find l k < 0) && decide (0 < Loc.find current k))))) :=
    List.mem_filter.mpr ⟨hkc, hcond⟩
  rw [if_neg (List.ne_nil_of_mem hmem)]
  exact ⟨_, _, rfl, List.mem_map.mpr ⟨k, hmem, rfl⟩⟩

/-- Every dimension shared between the (all-zero) query and some master gets
    a row in the bucket table. -/
theorem collectLimits_mem_keys {locs : List Loc} {current : Loc}
    (hc : ∀ p ∈ current, p.2 = 0) {l : Loc} (hl : l ∈ locs) {k : String}
    (hkc : k ∈ Loc.dims current) (hkl : k ∈ Loc.dims l) :
    k ∈ (collectLimits locs current).map (·.1) := by
  unfold collectLimits
  obtain ⟨a, b, hcom, hmemb⟩ := common_mem hc hkc hkl
  refine @foldl_reaches _ _ (fun t : List (String × Buckets) => k ∈ t.map (·.1)) _ ?_ _ ?_ locs hl []
  · intro t l' ht
    cases hcom' : Loc.common current l' with
    | none => simpa only [hcom'] using ht
    | some ab =>
        obtain ⟨a', b'⟩ := ab
        simp only [hcom']
        refine @foldl_inv _ _ (fun t : List (String × Buckets) => k ∈ t.map (·.1)) _ _ ?_ t ht
        intro t' p _ ht'
        dsimp only
        rw [limitUpdate_keys]
        split
        · exact ht'
        · rw [List.map_append]
          exact List.mem_append_left _ ht'
  · intro t
    simp only [hcom]
    refine @foldl_reaches _ _ (fun t : List (String × Buckets) => k ∈ t.map (·.1)) _ ?_ _ ?_ b hmemb t
    · intro t' p ht'
      dsimp only
      rw [limitUpdate_keys]
      split
      · exact ht'
      · rw [List.map_append]
        exact List.mem_append_left _ ht'
    · intro t'
      dsimp only
      rw [limitUpdate_keys]
      by_cases hct : ((t'.map (·.1)).contains k : Bool)
      · rw [if_pos hct]
        simpa using hct
      · rw [if_neg hct, List.map_append]
        refine List.mem_append_right _ ?_
        simp

/-- A table row whose aggregation succeeds is emitted by `getLimits`'s final
    fold. -/
theorem getLimits_fold_emits {table : List (String × Buckets)} {e : String × Buckets}
    (he : e ∈ table) {tr : Triple} (h : aggregateLimits e.2 = some tr) :
    ∀ acc, (e.1, tr) ∈ table.foldl (fun acc e =>
      match aggregateLimits e.2 with
      | some t => acc ++ [(e.1, t)]
      | none => acc) acc := by
  intro acc
  refine @foldl_reaches _ _ (fun a : List (String × Triple) => (e.1, tr) ∈ a) _ ?_ _ ?_ table he acc
  · intro a x hx
    dsimp only
    cases hagg : aggregateLimits x.2 with
    | none => simpa only [hagg] using hx
    | some t =>
        simp only [hagg]
        exact List.mem_append_left _ hx
  · intro a
    dsimp only
    simp only [h]
    exact List.mem_append_right _ (List.mem_singleton.mpr rfl)

/-- Claim C3's limits lemma: at an all-zero query, a dimension shared with
    some master appears in the limits table with a `(None, M, None)`
    triple. -/
theorem getLimits_mem {locs : List Loc} {current : Loc} (hc : ∀ p ∈ current, p.2 = 0)
    {l : Loc} (hl : l ∈ locs) {k : String} (hkc : k ∈ Loc.dims current)
    (hkl : k ∈ Loc.dims l) :
    ∃ M, (k, ((none : Option ℚ), some M, (none : Option ℚ))) ∈ getLimits locs current := by
  have hkeys := collectLimits_mem_keys hc hl hkc hkl
  rcases List.mem_map.mp hkeys with ⟨e, he, he1⟩
  obtain ⟨M, hM⟩ := aggregateLimits_form (collectLimits_eqNonempty locs current hc e he)
  refine ⟨M, ?_⟩
  unfold getLimits
  have hmem := getLimits_fold_emits he hM []
  rw [he1] at hmem
  exact hmem

/-- A degenerate `(None, M, None)` limits triple gives sub-factor 0 at query
    coordinate 0 against a master coordinate beyond epsilon. -/
theorem offAxisDim_zero {w : ℚ} (hv : EPSILON < |w|) (M : Option MEntry) :
    offAxisDim 0 w ((none : Option ℚ), M, (none : Option ℚ)) = 0 := by
  have hep := EPSILON_pos
  unfold offAxisDim
  dsimp only
  rcases abs_cases w with ⟨he, h0'⟩ | ⟨he, h0'⟩
  · rw [he] at hv
    rw [if_pos (by linarith : (0:ℚ) < w - EPSILON)]
    cases M with
    | none => rfl
    | some M' => rfl
  · rw [he] at hv
    rw [if_neg (not_lt.mpr (by linarith : w - EPSILON ≤ (0:ℚ))),
        if_pos (by linarith : (0:ℚ) > w + EPSILON)]

/-- The on-axis factor at query coordinate 0: with the origin sentinel among
    the masters the middle bucket is claimed, and a master coordinate beyond
    epsilon falls outside the tolerance, so the factor is 0. -/
theorem calcOnAxisFactor_zero {q : Loc} {ax : String} {dList : List Loc} {dl : Loc}
    (hax : ax ≠ "origin") (hq : Loc.find q ax = 0) (hv : EPSILON < |Loc.find dl ax|)
    (h0 : ∃ s ∈ dList, Loc.find s ax = 0) :
    calcOnAxisFactor q ax dList dl = 0 := by
  have hep := EPSILON_pos
  unfold calcOnAxisFactor
  dsimp only
  rw [if_neg hax, if_neg hax, hq]
  set i := List.insertionSort (· ≤ ·) ((dList.map (fun t => Loc.find t ax)).dedup) with hi
  have h0i : (0 : ℚ) ∈ i := by
    rw [hi]
    obtain ⟨s, hs, hs0⟩ := h0
    exact (List.perm_insertionSort _ _).mem_iff.mpr
      (List.mem_dedup.mpr (List.mem_map.mpr ⟨s, hs, hs0⟩))
  have hMs : (0 : ℚ) ∈ List.insertionSort (· ≤ ·)
      (i.filter (fun x => decide (¬ x < (0:ℚ)) && decide (¬ x > (0:ℚ)))) :=
    (List.perm_insertionSort _ _).mem_iff.mpr
      (List.mem_filter.mpr ⟨h0i, by decide⟩)
  obtain ⟨m0, hm0⟩ := head?_some_of_mem hMs
  have hcond : ¬ ((((0:ℚ) - EPSILON < Loc.find dl ax) ∧
      ((0:ℚ) + EPSILON > Loc.find dl ax)) ∨ (0:ℚ) = Loc.find dl ax) := by
    intro hcon
    rcases abs_cases (Loc.find dl ax) with ⟨he, h0'⟩ | ⟨he, h0'⟩ <;> rw [he] at hv <;>
      rcases hcon with ⟨h1, h2⟩ | h3 <;> linarith
  rw [hm0, if_neg hcond]

/-- An on-axis delta at a query sitting on the origin of its axis gets
    factor 0 when the master's own coordinate lies beyond epsilon. -/
theorem accumulateFactors_zero_onAxis {A : List (String × List Loc)} {q dl : Loc} {ax : String}
    (limits : List (String × Triple)) (ao : Bool)
    (hisa : Loc.isOnAxis dl = .axis ax) (hax : ax ≠ "origin")
    (hq : Loc.find q ax = 0) (hv : EPSILON < |Loc.find dl ax|) :
    (accumulateFactors A q dl limits ao).1 = 0 := by
  unfold accumulateFactors
  rw [hisa]
  dsimp only
  split
  · show Loc.find q ax * Loc.find dl ax = 0
    rw [hq, zero_mul]
  · show calcOnAxisFactor q ax (ensureSentinel (axesGet A ax) ax) dl = 0
    exact calcOnAxisFactor_zero hax hq hv
      ⟨[(ax, 0)], sentinel_mem_ensureSentinel _ _, by simp [Loc.find]⟩

/-- An off-axis delta gets factor 0 (with `axisOnly = false`) as soon as one
    of its dimensions carries a degenerate `(None, M, None)` limits triple, a
    zero query coordinate and a master coordinate beyond epsilon. -/
theorem accumulateFactors_zero_off {A : List (String × List Loc)} {q dl : Loc}
    {limits : List (String × Triple)} (hisa : Loc.isOnAxis dl = .off) {k : String}
    {M : MEntry}
    (hmem : (k, ((none : Option ℚ), some M, (none : Option ℚ))) ∈ limits)
    (hq : Loc.find q k = 0) (hv : EPSILON < |Loc.find dl k|) :
    (accumulateFactors A q dl limits false).1 = 0 := by
  unfold accumulateFactors
  rw [hisa]
  show calcOffAxisFactor q dl limits = 0
  unfold calcOffAxisFactor
  refine List.prod_eq_zero ?_
  refine List.mem_map.mpr ⟨(k, ((none : Option ℚ), some M, (none : Option ℚ))), hmem, ?_⟩
  dsimp only
  rw [hq]
  exact offAxisDim_zero hv (some M)

/-- A factor list of all-zero products sums to the algebra's zero. -/
theorem weightedSum_zero (n : Mutator) (fs : List Fac) (h : ∀ x ∈ fs, x.1 * x.2.1 = 0) :
    weightedSum n fs = 0 := by
  cases fs with
  | nil =>
      unfold weightedSum zeroOf
      cases n.neutral with
      | none => rfl
      | some v => exact zero_mul v
  | cons a t =>
      unfold weightedSum
      refine List.sum_eq_zero ?_
      intro x hx
      rcases List.mem_map.mp hx with ⟨e, he, rfl⟩
      exact h e he

theorem all_zero_of_isOrigin {l : Loc} (h : Loc.isOrigin l = true) : ∀ p ∈ l, p.2 = 0 := by
  intro p hp
  exact of_decide_eq_true (List.all_eq_true.mp h p hp)

/-- The C3 counterexample system: neutral 0 and one on-axis master at
    `pop = 2⁻⁵³` — within epsilon of the origin — carrying object 7. -/
def mC3 : Mutator :=
  addDelta (setNeutral Mutator.empty 0) [("pop", 1 / 2 ^ 53)] 7 none false true

/-- Claim C3 (counterexample): a mutator with a set neutral `N = 0` whose
    origin-relative query `bias - bias` returns 7, not the algebra's zero
    `0 × N = 0`: the master sits within epsilon of the origin on its axis, so
    `_calcOnAxisFactor` buckets the query as "at" that master and hands it
    factor 1, and its delta leaks into the blend. -/
theorem C3_counterexample :
    mC3.neutral = some 0 ∧
    (getInstanceSt mC3 (Loc.sub mC3.bias mC3.bias) false).1 = 7 ∧ (0 : ℚ) * 0 ≠ 7 := by
  refine ⟨by decide, by decide, by norm_num⟩

/-- Claim C3 (amended): for a mutator with a set neutral whose stored deltas
    are wellformed — origin deltas carry the zero object, delta locations
    repeat no axis name, every coordinate is zero or beyond epsilon in
    magnitude, and no axis is literally named `"origin"` — the query at
    `bias - bias` returns the algebra's zero `0 × N`: every coordinate of the
    expanded query is zero, so each on-axis delta factor is 0 (the sentinel
    claims the query exactly), each off-axis delta factor is 0 (every limits
    triple degenerates to `(None, M, None)`), and the surviving origin
    deltas contribute `1 × 0`. -/
theorem C3_origin_query (m : Mutator) (N : ℚ)
    (hN : m.neutral = some N)
    (horig : ∀ e ∈ m.deltas, Loc.isOrigin e.1 = true → e.2.1 = 0)
    (hnd : ∀ e ∈ m.deltas, (e.1.map (·.1)).Nodup)
    (hmag : ∀ e ∈ m.deltas, ∀ p ∈ e.1, p.2 = 0 ∨ EPSILON < |p.2|)
    (hax : "origin" ∉ getAxisNames m) :
    (getInstanceSt m (Loc.sub m.bias m.bias) false).1 = 0 * N := by
  have hep := EPSILON_pos
  have hqEz : ∀ p ∈ Loc.expand (Loc.sub m.bias m.bias) (getAxisNames m), p.2 = 0 :=
    expand_all_zero _ (isOrigin_sub_self m.bias)
  have hnamesnd : (getAxisNames m).Nodup := List.nodup_dedup _
  have hguard : ¬ ¬ ((0:ℚ) - EPSILON < 0 ∧ 0 < 0 + EPSILON) := by
    intro hcon
    exact hcon ⟨by linarith, by linarith⟩
  have hinv : ∀ x ∈ ((List.insertionSort keyLe (collectAxisPoints m).deltas).foldl
      (factorsStep (getAxisNames m) (Loc.expand (Loc.sub m.bias m.bias) (getAxisNames m))
        (getLimits (allLocations m) (Loc.expand (Loc.sub m.bias m.bias) (getAxisNames m)))
        false)
      ([], (collectAxisPoints m).axes)).1, x.1 * x.2.1 = 0 := by
    refine @foldl_inv _ _
      (fun acc : List Fac × List (String × List Loc) => ∀ x ∈ acc.1, x.1 * x.2.1 = 0)
      _ _ ?_ _ ?_
    · intro acc e he hacc
      have hem : e ∈ m.deltas := (List.perm_insertionSort keyLe _).subset he
      intro x hx
      unfold factorsStep at hx
      dsimp only at hx
      cases hoa : Loc.isOnAxis e.1 with
      | origin =>
          have ho : Loc.isOnAxis (Loc.expand e.1 (getAxisNames m)) = .origin := by
            rw [isOnAxis_expand, hoa]
          rw [accumulateFactors_origin _ _ _ _ _ ho] at hx
          dsimp only at hx
          revert hx
          split
          · intro hx
            rcases List.mem_append.mp hx with h1 | h1
            · exact hacc x h1
            · rcases List.mem_singleton.mp h1 with rfl
              have he0 : e.2.1 = 0 := horig e hem ((isOrigin_iff_onAxis_origin e.1).mpr hoa)
              dsimp only
              rw [he0, mul_zero]
          · intro hx
            exact hacc x hx
      | axis ax =>
          have ho : Loc.isOnAxis (Loc.expand e.1 (getAxisNames m)) = .axis ax := by
            rw [isOnAxis_expand, hoa]
          obtain ⟨p, hp, hp1, hp2⟩ := isOnAxis_axis_spec hoa
          have hpm : EPSILON < |p.2| := (hmag e hem p hp).resolve_left hp2
          have hfd : Loc.find (Loc.expand e.1 (getAxisNames m)) ax = p.2 := by
            rw [find_expand (hnd e hem) hnamesnd, ← hp1]
            exact find_of_mem_nodup hp (hnd e hem)
          have haxne : ax ≠ "origin" := by
            intro hco
            apply hax
            rw [← hco]
            exact mem_getAxisNames hem (by rw [← hp1]; exact List.mem_map.mpr ⟨p, hp, rfl⟩)
          have hfac : (accumulateFactors acc.2
              (Loc.expand (Loc.sub m.bias m.bias) (getAxisNames m))
              (Loc.expand e.1 (getAxisNames m))
              (getLimits (allLocations m)
                (Loc.expand (Loc.sub m.bias m.bias) (getAxisNames m))) false).1 = 0 :=
            accumulateFactors_zero_onAxis _ _ ho haxne
              (find_eq_zero_of_all_zero hqEz ax) (by rw [hfd]; exact hpm)
          rw [hfac] at hx
          rw [if_neg hguard] at hx
          exact hacc x hx
      | off =>
          have ho : Loc.isOnAxis (Loc.expand e.1 (getAxisNames m)) = .off := by
            rw [isOnAxis_expand, hoa]
          obtain ⟨p, hp, hp2⟩ := off_exists_nonzero hoa
          have hpm : EPSILON < |p.2| := (hmag e hem p hp).resolve_left hp2
          have hkl : p.1 ∈ Loc.dims e.1 := List.mem_map.mpr ⟨p, hp, rfl⟩
          have hkc : p.1 ∈ Loc.dims (Loc.expand (Loc.sub m.bias m.bias) (getAxisNames m)) :=
            mem_dims_expand _ (mem_getAxisNames hem hkl)
          have hel : e.1 ∈ allLocations m := List.mem_map.mpr ⟨e, hem, rfl⟩
          obtain ⟨M, hM⟩ := getLimits_mem hqEz hel hkc hkl
          have hfd : Loc.find (Loc.expand e.1 (getAxisNames m)) p.1 = p.2 := by
            rw [find_expand (hnd e hem) hnamesnd]
            exact find_of_mem_nodup hp (hnd e hem)
          have hfac : (accumulateFactors acc.2
              (Loc.expand (Loc.sub m.bias m.bias) (getAxisNames m))
              (Loc.expand e.1 (getAxisNames m))
              (getLimits (allLocations m)
                (Loc.expand (Loc.sub m.bias m.bias) (getAxisNames m))) false).1 = 0 :=
            accumulateFactors_zero_off ho hM (find_eq_zero_of_all_zero hqEz p.1)
              (by rw [hfd]; exact hpm)
          rw [hfac] at hx
          rw [if_neg hguard] at hx
          exact hacc x hx
    · intro x hx
      exact absurd hx (List.not_mem_nil x)
  rw [getInstanceSt_val, zero_mul]
  exact weightedSum_zero _ _ hinv

/-- Witness for C3: the wellformed two-axis system with an off-axis punched
    master returns the algebra's zero at the origin-relative query, and, in
    particular, 0 at the literal query `(pop=0, snap=0)`. -/
theorem C3_origin_query_witness :
    (getInstanceSt mOffAxis (Loc.sub mOffAxis.bias mOffAxis.bias) false).1 = 0 * 0 ∧
    (getInstanceSt mOffAxis [("pop", 0), ("snap", 0)] false).1 = 0 :=
  ⟨C3_origin_query mOffAxis 0 (by decide) (by decide) (by decide) (by decide) (by decide),
   by decide⟩

end MutatorMath
